import Mathlib

/-!
Verification development for the grafi event-driven workflow engine.

The definitions below are a shallow embedding of the repository's Python
sources.  Pure functions of the source become Lean functions; the stateful
execution loop becomes explicit state passing; fallible code returns
`Except`.  Where a repository file is not available (topic.py,
event_graph.py, node.py, event.py), the corresponding definition is
modelled from the specification and marked as such in its doc comment.
-/

namespace Grafi

/-- Message value type (spec section 3; message.py is not part of the
provided sources).  Only the fields the engine inspects are modelled:
`role`, `content`, `tool_call_id`, `tool_calls` (as the list of call ids
carried), and `timestamp` (used for conversation-context ordering).  The
`tools` and `name` fields are never read by the engine code under
verification and are omitted. -/
structure Message where
  role : String
  content : Option String
  tool_call_id : Option String
  tool_calls : List String
  timestamp : Nat
deriving DecidableEq, Repr

/-- Event payload: `data: Union[Message, List[Message]]` in the Python
sources. -/
inductive MData where
  | one (m : Message)
  | many (ms : List Message)
deriving DecidableEq, Repr

/-- `event.data if isinstance(event.data, list) else [event.data]`
(llm_node.py line 103). -/
def MData.flat : MData → List Message
  | .one m => [m]
  | .many ms => ms

/-- Topic event as seen by `LLMNode.get_command_input`: either a
`PublishToTopicEvent` (carrying `consumed_event_ids` backlinks) or a
`ConsumeFromTopicEvent` (no backlinks of its own).  Fields follow spec
section 3. -/
structure TopicEvent where
  event_id : String
  is_publish : Bool
  topic_name : String
  offset : Nat
  consumed_event_ids : List String
  data : MData
deriving DecidableEq, Repr

/-- Modelled from the spec: the Event Graph (event_graph.py is not among
the provided sources).  Backward edges of an event: a publish event links
to the events named in its `consumed_event_ids`; a consume event is linked
to its originating publish event, identified by the same
`(topic_name, offset)` pair in the pool (spec section 4.2: the graph is
built "from a node's directly consumed events plus the full pool of prior
events for the request, using `consumed_event_ids` as backward edges"). -/
def predIds (pool : List TopicEvent) (e : TopicEvent) : List String :=
  if e.is_publish then e.consumed_event_ids
  else e.consumed_event_ids ++
    ((pool.filter (fun p =>
      p.is_publish && p.topic_name == e.topic_name && p.offset == e.offset)).map
        (fun p => p.event_id))

/-- Keep the first event for each `event_id` (duplicate ids collapse);
`seen` accumulates the ids already kept. -/
def dedupeByIdAux (seen : List String) : List TopicEvent → List TopicEvent
  | [] => []
  | e :: es =>
      if e.event_id ∈ seen then dedupeByIdAux seen es
      else e :: dedupeByIdAux (e.event_id :: seen) es

/-- Keep the first event for each `event_id` (duplicate ids collapse). -/
def dedupeById (l : List TopicEvent) : List TopicEvent :=
  dedupeByIdAux [] l

/-- Pool events newly reachable from the accumulator through one backward
edge, and not yet present (by event id). -/
def newPreds (pool acc : List TopicEvent) : List TopicEvent :=
  pool.filter (fun p =>
    (acc.any (fun e => (predIds pool e).contains p.event_id)) &&
    !(acc.any (fun q => q.event_id == p.event_id)))

/-- Modelled from the spec: saturate the accumulator with backward-reachable
pool events (spec section 4.2, "causally-ordered closure of a node's input
events"). -/
def closureAux (pool : List TopicEvent) : Nat → List TopicEvent → List TopicEvent
  | 0, acc => acc
  | fuel + 1, acc =>
      let ns := newPreds pool acc
      if ns = [] then acc else closureAux pool fuel (acc ++ ns)

/-- Modelled from the spec: `EventGraph.build_graph(node_input, topic_events)`
collects the transitive causal inputs of the node's directly consumed
events. -/
def build_graph (roots pool : List TopicEvent) : List TopicEvent :=
  closureAux pool (pool.length + 1) (dedupeById roots)

/-- An event is available for emission when no other event still in `rem`
is one of its predecessors. -/
def availB (pool rem : List TopicEvent) (e : TopicEvent) : Bool :=
  !(rem.any (fun r =>
      (predIds pool e).contains r.event_id && r.event_id != e.event_id))

/-- Keep whichever of the current best candidate and the next event has
the smaller offset (the first seen wins ties).  Modelled from the spec:
tie-breaking among events with no ordering constraint uses original
publish offset order (spec section 4.2). -/
def pickMin (best : Option TopicEvent) (e : TopicEvent) : Option TopicEvent :=
  match best with
  | none => some e
  | some b => if e.offset < b.offset then some e else some b

def pickAvail (pool rem : List TopicEvent) : Option TopicEvent :=
  (rem.filter (availB pool rem)).foldl pickMin none

/-- Modelled from the spec: deterministic topological ordering of the event
graph — an event is never emitted before any event it transitively
consumed (spec section 4.2).  Kahn-style selection; on a cycle the
remaining events are dropped (cycles cannot arise from causal backlinks). -/
def topoSort (pool : List TopicEvent) : Nat → List TopicEvent → List TopicEvent
  | 0, _ => []
  | fuel + 1, rem =>
      match pickAvail pool rem with
      | none => []
      | some e => e :: topoSort pool fuel (rem.erase e)

/-- Modelled from the spec: `EventGraph.get_topology_sorted_events()`. -/
def get_topology_sorted_events (roots pool : List TopicEvent) : List TopicEvent :=
  let cl := build_graph roots pool
  topoSort pool cl.length cl

/-- The Python dict `{msg.tool_call_id: msg for msg in messages if ...}`
keeps, for each id, the last message carrying it (llm_node.py lines
108-110). -/
def toolResultLookup (messages : List Message) (cid : String) : Option Message :=
  (messages.filter (fun m => m.tool_call_id == some cid)).getLast?

/-- The message appended after a tool-call message for call id `cid`:
the recorded tool-result message if one exists, otherwise the synthetic
empty tool message of llm_node.py lines 124-129. -/
def mkToolResult (messages : List Message) (cid : String) : Message :=
  match toolResultLookup messages cid with
  | some m => m
  | none =>
      { role := "tool", content := none, tool_call_id := some cid
        tool_calls := [], timestamp := 0 }

/-- The re-interleaving loop of llm_node.py lines 114-132.  The Python
`while` scans the list left to right; at a message with non-empty
`tool_calls` it inserts, for each tool call in turn, the matching result
at position `i + 1` — so the inserted block ends up in reverse
`tool_calls` order — and then advances past the whole inserted block, so
inserted messages are never themselves scanned. -/
def interleaveToolResults (origMessages : List Message) : List Message → List Message
  | [] => []
  | m :: rest =>
      if m.tool_calls = [] then m :: interleaveToolResults origMessages rest
      else
        m :: ((m.tool_calls.map (mkToolResult origMessages)).reverse
              ++ interleaveToolResults origMessages rest)

/-- `LLMNode.get_command_input` (llm_node.py lines 79-139).  The event
store lookup `container.event_store.get_agent_events(...)` is passed in as
`pool` (the request's publish/consume events); the final step that
attaches the node's function specs to the last message only writes the
`tools` field, which is not modelled (no claim concerns it). -/
def flattened_input (node_input pool : List TopicEvent) : List Message :=
  ((get_topology_sorted_events node_input pool).map (fun e => e.data.flat)).flatten

def get_command_input (node_input pool : List TopicEvent) : List Message :=
  let messages := flattened_input node_input pool
  let kept := messages.filter (fun m => m.tool_call_id = none)
  interleaveToolResults messages kept

/-- The synthetic empty tool-result message substituted for a missing
tool result (llm_node.py lines 124-129). -/
def syntheticToolMessage (cid : String) : Message :=
  { role := "tool", content := none, tool_call_id := some cid
    tool_calls := [], timestamp := 0 }

/-- Number of pool event ids not yet represented in the accumulator;
termination measure of the closure construction. -/
def missingIds (pool acc : List TopicEvent) : Nat :=
  (((pool.map TopicEvent.event_id).toFinset) \ ((acc.map TopicEvent.event_id).toFinset)).card

/-- A direct causal edge usable in transitive-consumption chains:
`a` is a pool event named among the predecessors of `b`. -/
def consumedEdge (pool : List TopicEvent) (a b : TopicEvent) : Prop :=
  a.event_id ∈ predIds pool b ∧ a ∈ pool ∧ a ≠ b

/-! ### Workflow engine data model (event_driven_workflow.py and spec) -/

/-- `ExecutionContext` (spec section 3). -/
structure ExecutionContext where
  conversation_id : String
  execution_id : String
  assistant_request_id : String
deriving DecidableEq, Repr

/-- Topic specializations (spec sections 3 and 4.1): the entry
(agent-input) topic, the terminal/output topic, the human-request topic,
and plain topics. -/
inductive TopicKind where
  | normal
  | entry
  | output
  | humanRequest
deriving DecidableEq, Repr

/-- Data carried by a publish or consume event in the engine: either a
fully materialised message list, or the not-yet-drained chunk sequence of
an asynchronous generator (`a_execute` passes the live generator object
to `_publish_events` for streaming nodes). -/
inductive MsgSource where
  | drained (ms : List Message)
  | stream (chunks : List (List Message))
deriving DecidableEq, Repr

/-- `PublishToTopicEvent` / `OutputTopicEvent` (spec section 3;
`is_output` distinguishes the `OutputTopicEvent` subclass produced by
output topics, which `on_event` ignores). -/
structure PubEvent where
  event_id : String
  ctx : ExecutionContext
  topic_name : String
  offset : Nat
  publisher_name : String
  publisher_type : String
  consumed_event_ids : List String
  is_output : Bool
  data : MsgSource
deriving DecidableEq, Repr

/-- `ConsumeFromTopicEvent` (spec section 3). -/
structure ConsEvent where
  event_id : String
  ctx : ExecutionContext
  topic_name : String
  offset : Nat
  consumer_name : String
  consumer_type : String
  data : MsgSource
deriving DecidableEq, Repr

/-- `AssistantRespondEvent` payload (input/output of a completed run). -/
structure ARData where
  ctx : ExecutionContext
  event_id : String
  input_data : List Message
  output_data : List Message
deriving DecidableEq, Repr

/-- An entry of the append-only event store.  Only the event classes the
engine code reads back are modelled. -/
inductive SEvent where
  | pub (e : PubEvent)
  | cons (e : ConsEvent)
  | assistantRespond (ar : ARData)
deriving DecidableEq, Repr

/-- First-match lookup in an association list (Python dict lookup; keys
are unique in every built workflow). -/
def lookupStr {α : Type} (l : List (String × α)) (k : String) : Option α :=
  (l.find? (fun p => p.1 == k)).map (fun p => p.2)

/-- Replace the value under an existing key, or append the binding. -/
def updateStr {α : Type} (l : List (String × α)) (k : String) (v : α) :
    List (String × α) :=
  if l.any (fun p => p.1 == k) then
    l.map (fun p => if p.1 == k then (k, v) else p)
  else l ++ [(k, v)]

/-- Modelled from the spec: Topic state (topic.py is not among the
provided sources; spec sections 3 and 4.1): name, specialization kind,
ordered publish events, and per-consumer cursors (last consumed offset). -/
structure Topic where
  name : String
  kind : TopicKind
  events : List PubEvent
  consumption_offsets : List (String × Nat)
deriving DecidableEq, Repr

def Topic.cursor (t : Topic) (c : String) : Option Nat :=
  lookupStr t.consumption_offsets c

/-- Is `e` not yet consumed by consumer cursor position `cur`? -/
def offsetNew (cur : Option Nat) (e : PubEvent) : Bool :=
  match cur with
  | none => true
  | some k => decide (k < e.offset)

/-- Modelled from the spec: `Topic.can_consume(consumer_name)` — true iff
some event sits at an offset greater than the consumer's cursor
(spec section 4.1). -/
def Topic.can_consume (t : Topic) (c : String) : Bool :=
  t.events.any (offsetNew (t.cursor c))

/-- The events a consumer has not consumed yet. -/
def Topic.unconsumed (t : Topic) (c : String) : List PubEvent :=
  t.events.filter (offsetNew (t.cursor c))

/-- Next offset: one past the largest offset present (0 on an empty
topic); restores keep original offsets, later publishes stay above them. -/
def Topic.nextOffset (t : Topic) : Nat :=
  t.events.foldl (fun a e => max a (e.offset + 1)) 0

/-- Modelled from the spec: `Topic.publish_data` appends a new publish
event at the next offset with causal backlinks to the consumed events and
returns it, or returns null when the publish policy declines — the entry
topic accepts only the first publish of a run (spec section 4.1); the
default policy always publishes.  The caller invokes the registered
publish handler on the returned event. -/
def Topic.publish_data (t : Topic) (ctx : ExecutionContext)
    (publisher_name publisher_type : String) (data : MsgSource)
    (consumed_ids : List String) : Option PubEvent × Topic :=
  if t.kind = TopicKind.entry ∧ t.events ≠ [] then (none, t)
  else
    let e : PubEvent :=
      { event_id := "", ctx := ctx, topic_name := t.name
        offset := t.nextOffset, publisher_name := publisher_name
        publisher_type := publisher_type, consumed_event_ids := consumed_ids
        is_output := t.kind = TopicKind.output, data := data }
    (some e, { t with events := t.events ++ [e] })

/-- Modelled from the spec: `Topic.consume(consumer_name)` returns all
unconsumed events and advances the cursor to the latest offset
(spec section 4.1). -/
def Topic.consume (t : Topic) (c : String) : List PubEvent × Topic :=
  let evs := t.unconsumed c
  match evs with
  | [] => ([], t)
  | _ =>
      let latest := (evs.map PubEvent.offset).foldl max 0
      (evs, { t with consumption_offsets := updateStr t.consumption_offsets c latest })

/-- Modelled from the spec: `Topic.reset()` clears events and cursors
(spec section 4.1). -/
def Topic.reset (t : Topic) : Topic :=
  { t with events := [], consumption_offsets := [] }

/-- Modelled from the spec: `Topic.restore_topic(event)` re-inserts a
stored publish event without re-triggering handlers; a stored consume
event advances that consumer's cursor (rebuilding cursors during replay,
spec sections 4.1 and 4.5). -/
def Topic.restore_topic (t : Topic) (ev : SEvent) : Topic :=
  match ev with
  | .pub e => { t with events := t.events ++ [e] }
  | .cons e =>
      let newCur := match t.cursor e.consumer_name with
        | none => e.offset
        | some k => max k e.offset
      { t with consumption_offsets :=
          updateStr t.consumption_offsets e.consumer_name newCur }
  | _ => t

/-- Modelled from the spec: `HumanRequestTopic.can_append_user_input` —
the topic is a human-request topic and the publish event is not yet
consumed by the consumer (spec sections 4.1 and 4.5). -/
def Topic.can_append_user_input (t : Topic) (c : String) (e : PubEvent) : Bool :=
  t.kind == TopicKind.humanRequest && offsetNew (t.cursor c) e

/-- Append new user input to an existing data payload. -/
def appendData (d : MsgSource) (ms : List Message) : MsgSource :=
  match d with
  | .drained l => .drained (l ++ ms)
  | .stream ch => .stream (ch ++ [ms])

/-- Modelled from the spec: `HumanRequestTopic.append_user_input` merges
the new input into the existing publish event in place (same offset, no
duplicate), returning the updated event to be recorded (spec sections 4.1
and 4.5, scenario in section 8). -/
def Topic.append_user_input (t : Topic) (e : PubEvent) (ms : List Message) :
    PubEvent × Topic :=
  let e2 := { e with data := appendData e.data ms }
  (e2, { t with events := t.events.map (fun x => if x.offset == e.offset then e2 else x) })

/-- Subscription expression: boolean AND/OR tree over topics
(topic_expression.py is not among the provided sources; spec section 3). -/
inductive TopicExpr where
  | topic (t : Topic)
  | and (a b : TopicExpr)
  | or (a b : TopicExpr)
deriving DecidableEq, Repr

/-- `extract_topics`: the topics referenced by an expression. -/
def extract_topics : TopicExpr → List Topic
  | .topic t => [t]
  | .and a b => extract_topics a ++ extract_topics b
  | .or a b => extract_topics a ++ extract_topics b

/-- Node (spec sections 3 and 6; node.py is not among the provided
sources).  `is_stream_command` models
`isinstance(node.command, LLMStreamResponseCommand)`. -/
structure Node where
  name : String
  type : String
  subscribed_expressions : List TopicExpr
  publish_to : List Topic
  is_stream_command : Bool
deriving DecidableEq, Repr

/-- `node._subscribed_topics`: the topic names referenced by the node's
subscription expressions, first occurrence first. -/
def Node.subscribed_topic_names (n : Node) : List String :=
  ((n.subscribed_expressions.map extract_topics).flatten.map Topic.name).eraseDups

/-- Modelled from the spec: expression evaluation for node readiness — a
topic leaf is satisfied iff the workflow's topic of that name has
unconsumed data for this consumer (spec section 4.1). -/
def evalExpr (topics : List (String × Topic)) (cname : String) : TopicExpr → Bool
  | .topic t =>
      match lookupStr topics t.name with
      | some tp => tp.can_consume cname
      | none => false
  | .and a b => evalExpr topics cname a && evalExpr topics cname b
  | .or a b => evalExpr topics cname a || evalExpr topics cname b

/-- Modelled from the spec: `Node.can_execute()` — all subscription
expressions satisfied (spec section 4.1). -/
def can_execute (topics : List (String × Topic)) (n : Node) : Bool :=
  n.subscribed_expressions.all (evalExpr topics n.name)

/-- Workflow as wired by the builder: nodes, topics and the subscriber
index, all keyed by name (event_driven_workflow.py lines 48-55). -/
structure Workflow where
  name : String
  type : String
  nodes : List (String × Node)
  topics : List (String × Topic)
  topic_nodes : List (String × List String)
deriving DecidableEq, Repr

/-- Mutable engine state of one invocation: current topic states, the
execution queue (node names) and the event store. -/
structure WState where
  topics : List (String × Topic)
  queue : List String
  store : List SEvent
deriving DecidableEq, Repr

def AGENT_INPUT_TOPIC : String := "agent_input"

def AGENT_OUTPUT_TOPIC : String := "agent_output"

/-- `EventDrivenWorkflow.on_event` (lines 277-296): called for every
publish; ignores `OutputTopicEvent`s, then appends every subscriber of
the topic that reports readiness to the execution queue. -/
def on_event (w : Workflow) (topics : List (String × Topic))
    (queue : List String) (e : PubEvent) : List String :=
  if e.is_output then queue
  else
    match lookupStr w.topic_nodes e.topic_name with
    | none => queue
    | some ns =>
        ns.foldl (fun q nname =>
          match lookupStr w.nodes nname with
          | some n => if can_execute topics n then q ++ [nname] else q
          | none => q) queue

/-- The consume events `get_node_input` creates for the events drained
from one topic (lines 264-273). -/
def mkConsEvents (n : Node) (evs : List PubEvent) : List ConsEvent :=
  evs.map (fun e =>
    { event_id := "", ctx := e.ctx, topic_name := e.topic_name
      offset := e.offset, consumer_name := n.name, consumer_type := n.type
      data := e.data })

/-- The per-topic drain loop of `EventDrivenWorkflow.get_node_input`
(lines 254-275): for each subscribed topic with consumable events,
consume them and wrap them as `ConsumeFromTopicEvent`s. -/
def consumeFromTopics (n : Node) : List String → List (String × Topic) →
    List ConsEvent × List (String × Topic)
  | [], tps => ([], tps)
  | tname :: names, tps =>
      match lookupStr tps tname with
      | none => consumeFromTopics n names tps
      | some t =>
          if t.can_consume n.name then
            let consumed := t.consume n.name
            let rest := consumeFromTopics n names (updateStr tps tname consumed.2)
            (mkConsEvents n consumed.1 ++ rest.1, rest.2)
          else consumeFromTopics n names tps

def get_node_input (n : Node) (tps : List (String × Topic)) :
    List ConsEvent × List (String × Topic) :=
  consumeFromTopics n n.subscribed_topic_names tps

/-- State threaded through `_publish_events`: topic map, queue (the
publish handler fires synchronously after each publish) and the publish
events collected for recording. -/
structure PubFold where
  topics : List (String × Topic)
  queue : List String
  pubs : List PubEvent
deriving DecidableEq, Repr

/-- One target topic of `_publish_events` (lines 175-184): publish the
result to the target (looked up in the workflow's topic map by name);
when the topic accepts, its publish handler — the workflow's own
`on_event` — fires synchronously and the event is collected for
recording. -/
def publishStep (w : Workflow) (n : Node) (ctx : ExecutionContext)
    (result : MsgSource) (consumed_ids : List String) (acc : PubFold)
    (target : Topic) : PubFold :=
  match lookupStr acc.topics target.name with
  | none => acc
  | some t =>
      let pub := t.publish_data ctx n.name n.type result consumed_ids
      let tps2 := updateStr acc.topics target.name pub.2
      match pub.1 with
      | none => { acc with topics := tps2 }
      | some ev =>
          { topics := tps2, queue := on_event w tps2 acc.queue ev
            pubs := acc.pubs ++ [ev] }

/-- `EventDrivenWorkflow._publish_events` (lines 167-186): publish the
node's result to every target topic (collecting the non-null returned
events), then record the consumed events and the published events as one
batch.  Returns the updated topics and queue and the recorded batch. -/
def _publish_events (w : Workflow) (n : Node) (ctx : ExecutionContext)
    (result : MsgSource) (consumed : List ConsEvent)
    (topics : List (String × Topic)) (queue : List String) :
    PubFold × List SEvent :=
  let folded := n.publish_to.foldl
    (publishStep w n ctx result (consumed.map ConsEvent.event_id))
    { topics := topics, queue := queue, pubs := [] }
  (folded, consumed.map SEvent.cons ++ folded.pubs.map SEvent.pub)

/-- One iteration of the `while self.execution_queue` loop of
`EventDrivenWorkflow.execute` (lines 199-214): pop a node, gather its
input; if any events were gathered, invoke the node (its result is the
externally supplied `result`) and publish and record.  If no events were
gathered the node is not invoked and nothing is published or recorded. -/
def execStep (w : Workflow) (ctx : ExecutionContext) (result : MsgSource)
    (nname : String) (rest : List String) (st : WState) :
    Except String WState :=
  match lookupStr w.nodes nname with
  | none => Except.error "node not found"
  | some n =>
      let gathered := get_node_input n st.topics
      match gathered.1 with
      | [] => Except.ok { topics := gathered.2, queue := rest, store := st.store }
      | _ =>
          let published := _publish_events w n ctx result gathered.1 gathered.2 rest
          Except.ok { topics := published.1.topics, queue := published.1.queue
                      store := st.store ++ published.2 }

/-- One iteration of the `a_execute` loop (lines 227-252): for a node
whose command is an `LLMStreamResponseCommand` the async generator is
passed on unconsumed; otherwise the generator is drained fully and the
chunks are aggregated into one message list. -/
def a_execStep (w : Workflow) (ctx : ExecutionContext)
    (chunks : List (List Message)) (nname : String) (rest : List String)
    (st : WState) : Except String WState :=
  match lookupStr w.nodes nname with
  | none => Except.error "node not found"
  | some n =>
      let result := if n.is_stream_command then MsgSource.stream chunks
        else MsgSource.drained chunks.flatten
      execStep w ctx result nname rest st

def resetTopics (topics : List (String × Topic)) : List (String × Topic) :=
  topics.map (fun p => (p.1, p.2.reset))

/-- Is this a publish or consume event of the given request
(`get_agent_events` plus the isinstance filter of lines 308-314)? -/
def isRequestTopicEvent (rid : String) : SEvent → Bool
  | .pub e => e.ctx.assistant_request_id == rid
  | .cons e => e.ctx.assistant_request_id == rid
  | .assistantRespond _ => false

def SEvent.topicName? : SEvent → Option String
  | .pub e => some e.topic_name
  | .cons e => some e.topic_name
  | .assistantRespond _ => none

/-- The `AssistantRespondEvent`s of the conversation
(`get_conversation_events` plus the isinstance filter, lines 319-327). -/
def conversationARs (store : List SEvent) (cid : String) : List ARData :=
  store.filterMap (fun ev =>
    match ev with
    | .assistantRespond ar =>
        if ar.ctx.conversation_id == cid then some ar else none
    | _ => none)

def lastWithId (l : List ARData) (k : String) : Option ARData :=
  (l.filter (fun a => a.event_id == k)).getLast?

def dedupeARAux (seen : List String) : List ARData → List ARData
  | [] => []
  | a :: rest =>
      if a.event_id ∈ seen then dedupeARAux seen rest
      else a :: dedupeARAux (a.event_id :: seen) rest

/-- `.values()` of the Python dict keyed by event id (lines 323-327):
positions follow the first occurrence of each id, the value kept is the
last one recorded under that id. -/
def dictValuesById (l : List ARData) : List ARData :=
  (dedupeARAux [] l).map (fun a => (lastWithId l a.event_id).getD a)

/-- `sorted(all_messages, key=lambda item: item.timestamp)` — Python's
sort is stable; insertion sort with the non-strict order is the stable
sort. -/
def sortByTimestamp (l : List Message) : List Message :=
  List.insertionSort (fun a b => a.timestamp ≤ b.timestamp) l

/-- The messages seeding a fresh run (lines 329-341): input and output
messages of the conversation's assistant-respond events, sorted by
timestamp, with the new input appended. -/
def freshRunSeed (store : List SEvent) (cid : String) (input : List Message) :
    List Message :=
  sortByTimestamp ((dictValuesById (conversationARs store cid)).flatMap
    (fun a => a.input_data ++ a.output_data)) ++ input

/-- The input and output messages of all of the conversation's
assistant-respond events (what `freshRunSeed` sorts when event ids are
unique). -/
def allConversationMessages (store : List SEvent) (cid : String) :
    List Message :=
  (conversationARs store cid).flatMap (fun a => a.input_data ++ a.output_data)

/-- The replay fold of the resumption branch (lines 354-356): every
stored event of the request is replayed into its topic. -/
def restoreFold (events : List SEvent) (topics : List (String × Topic)) :
    Except String (List (String × Topic)) :=
  events.foldlM (fun tps ev =>
    match SEvent.topicName? ev with
    | none => pure tps
    | some tname =>
        match lookupStr tps tname with
        | none => Except.error "topic not found"
        | some t => pure (updateStr tps tname (t.restore_topic ev))) topics

/-- State threaded through the re-enqueue loop of the resumption branch. -/
structure EnqFold where
  topics : List (String × Topic)
  queue : List String
  recorded : List SEvent
deriving DecidableEq, Repr

/-- The inner node loop of the resumption branch (lines 373-386): a
subscriber that can still consume and is ready is re-enqueued; on a
human-request topic whose pending event accepts the new input, the input
is merged into the existing publish event and the updated event is
recorded. -/
def enqNodes (w : Workflow) (input : List Message) (pe : PubEvent) :
    List String → EnqFold → Except String EnqFold
  | [], acc => Except.ok acc
  | nname :: ns, acc =>
      match lookupStr w.nodes nname with
      | none => Except.error "node not found"
      | some node =>
          match lookupStr acc.topics pe.topic_name with
          | none => Except.error "topic not found"
          | some t =>
              if t.can_consume nname && can_execute acc.topics node then
                if t.can_append_user_input nname pe then
                  let app := t.append_user_input pe input
                  enqNodes w input pe ns
                    { topics := updateStr acc.topics pe.topic_name app.2
                      queue := acc.queue ++ [nname]
                      recorded := acc.recorded ++ [SEvent.pub app.1] }
                else
                  enqNodes w input pe ns { acc with queue := acc.queue ++ [nname] }
              else enqNodes w input pe ns acc

/-- The outer publish-event loop of the resumption branch
(lines 358-386). -/
def enqFold (w : Workflow) (input : List Message) (pubEvents : List PubEvent)
    (topics : List (String × Topic)) : Except String EnqFold :=
  pubEvents.foldlM (fun acc pe =>
    match lookupStr w.topic_nodes pe.topic_name with
    | none => pure acc
    | some ns => enqNodes w input pe ns acc)
    { topics := topics, queue := [], recorded := [] }

def storedPubs (events : List SEvent) : List PubEvent :=
  events.filterMap (fun ev => match ev with | .pub e => some e | _ => none)

/-- `EventDrivenWorkflow.initial_workflow` (lines 298-386).  Reset all
topics; fetch the request's stored publish/consume events.  If none
exist (fresh run): seed the entry topic with the conversation context
plus the new input and record that single publish event (the publish
handler fires, seeding the queue).  Otherwise (resumption): replay every
stored event into its topic, then re-enqueue every ready subscriber of
every stored publish event, merging new human input into the pending
publish event where accepted. -/
def initial_workflow (w : Workflow) (ctx : ExecutionContext)
    (input : List Message) (store : List SEvent) : Except String WState :=
  let topics0 := resetTopics w.topics
  let events := store.filter (isRequestTopicEvent ctx.assistant_request_id)
  match events with
  | [] =>
      let seed := freshRunSeed store ctx.conversation_id input
      match lookupStr topics0 AGENT_INPUT_TOPIC with
      | none => Except.error "agent input topic not found"
      | some t =>
          let pub := t.publish_data ctx w.name w.type (MsgSource.drained seed) []
          let topics1 := updateStr topics0 AGENT_INPUT_TOPIC pub.2
          match pub.1 with
          | none => Except.error "entry publish declined"
          | some ev =>
              Except.ok { topics := topics1
                          queue := on_event w topics1 [] ev
                          store := store ++ [SEvent.pub ev] }
  | _ => do
      let restored ← restoreFold events topics0
      let enq ← enqFold w input (storedPubs events) restored
      Except.ok { topics := enq.topics, queue := enq.queue
                  store := store ++ enq.recorded }

/-- The `while` loop of `execute`/`a_execute`, with the externally
produced node results supplied by `results` (node bodies are external to
the engine) and explicit fuel. -/
def execLoop (w : Workflow) (ctx : ExecutionContext)
    (results : Nat → MsgSource) : Nat → WState → Except String WState
  | 0, st => match st.queue with
      | [] => Except.ok st
      | _ => Except.error "out of fuel"
  | fuel + 1, st =>
      match st.queue with
      | [] => Except.ok st
      | nname :: rest => do
          let st2 ← execStep w ctx (results fuel) nname rest st
          execLoop w ctx results fuel st2

/-- `EventDrivenWorkflow.execute` (lines 188-214): initialise from the
store, then drain the queue. -/
def execute (w : Workflow) (ctx : ExecutionContext) (results : Nat → MsgSource)
    (fuel : Nat) (input : List Message) (store : List SEvent) :
    Except String WState := do
  let st ← initial_workflow w ctx input store
  execLoop w ctx results fuel st

/-- All states reachable by running `execute`/`a_execute` from an empty
event store: the state produced by `initial_workflow`, and every state
produced from a reachable state by one loop iteration, for any node
result whatsoever (`result` covers both the synchronous result, the
drained aggregate and the undrained stream of `a_execute`). -/
inductive Reaches (w : Workflow) (ctx : ExecutionContext)
    (input : List Message) : WState → Prop where
  | init : ∀ {st : WState}, initial_workflow w ctx input [] = Except.ok st →
      Reaches w ctx input st
  | step : ∀ {st st' : WState} (nname : String) (rest : List String)
      (result : MsgSource), Reaches w ctx input st →
      st.queue = nname :: rest →
      execStep w ctx result nname rest st = Except.ok st' →
      Reaches w ctx input st'

/-! ### Builder (event_driven_workflow.py lines 66-165) -/

/-- `EventDrivenWorkflow.Builder.node` (lines 75-85): registering a node
whose name is already present raises `DuplicateNodeError`. -/
def builder_node (nodes : List (String × Node)) (n : Node) :
    Except String (List (String × Node)) :=
  if (lookupStr nodes n.name).isSome then Except.error "DuplicateNodeError"
  else Except.ok (nodes ++ [(n.name, n)])

/-- `Builder._add_topic` (lines 126-134): register the topic if absent. -/
def _add_topic (topics : List (String × Topic)) (t : Topic) :
    List (String × Topic) :=
  if (lookupStr topics t.name).isSome then topics else topics ++ [(t.name, t)]

/-- `topic_nodes.setdefault(name, []).append(node_name)` (lines 100-102). -/
def addTopicNode (tns : List (String × List String)) (tname nname : String) :
    List (String × List String) :=
  match lookupStr tns tname with
  | some l => updateStr tns tname (l ++ [nname])
  | none => tns ++ [(tname, [nname])]

/-- Step 1 of `Builder.build` for one node: register the topics of its
subscription expressions (indexing the node under each) and its publish
targets (lines 93-110). -/
def gatherNodeTopics (acc : List (String × Topic) × List (String × List String))
    (entry : String × Node) :
    List (String × Topic) × List (String × List String) :=
  let subbed := entry.2.subscribed_expressions.foldl
    (fun (acc : List (String × Topic) × List (String × List String)) expr =>
      (extract_topics expr).foldl
        (fun (acc : List (String × Topic) × List (String × List String)) t =>
          (_add_topic acc.1 t, addTopicNode acc.2 t.name entry.1)) acc) acc
  (entry.2.publish_to.foldl _add_topic subbed.1, subbed.2)

/-- `Builder.build` (lines 87-124): wire topics and the subscriber index,
then require an agent input or agent output topic; the function-spec
linking pass only mutates LLM node function specs and is not modelled
(no claim concerns it, and it cannot fail). -/
def builder_build (nodes : List (String × Node)) : Except String Workflow :=
  let gathered := nodes.foldl gatherNodeTopics ([], [])
  if (lookupStr gathered.1 AGENT_INPUT_TOPIC).isNone
      ∧ (lookupStr gathered.1 AGENT_OUTPUT_TOPIC).isNone then
    Except.error "Agent input output topic not found in workflow topics."
  else
    Except.ok { name := "EventDrivenWorkflow", type := "EventDrivenWorkflow"
                nodes := nodes, topics := gathered.1
                topic_nodes := gathered.2 }

/-- Register a list of nodes one by one, then build. -/
def buildWorkflow (ns : List Node) : Except String Workflow := do
  let nodes ← ns.foldlM builder_node []
  builder_build nodes

/-! ### Invariant vocabulary for the event store (claims C3 and C6) -/

/-- The publish events recorded for one topic, in record order. -/
def storePubsFor : List SEvent → String → List PubEvent
  | [], _ => []
  | .pub e :: rest, tname =>
      if e.topic_name == tname then e :: storePubsFor rest tname
      else storePubsFor rest tname
  | .cons _ :: rest, tname => storePubsFor rest tname
  | .assistantRespond _ :: rest, tname => storePubsFor rest tname

/-- The events of one topic among a batch of publish events. -/
def pubsFor (pubs : List PubEvent) (tname : String) : List PubEvent :=
  pubs.filter (fun e => e.topic_name == tname)

/-- Every recorded consume event references a `(topic_name, offset)` pair
of a publish event recorded strictly earlier. -/
def ConsMatch (store : List SEvent) : Prop :=
  ∀ (i : Nat) (c : ConsEvent), store[i]? = some (SEvent.cons c) →
    ∃ (j : Nat) (p : PubEvent), j < i ∧ store[j]? = some (SEvent.pub p)
      ∧ p.topic_name = c.topic_name ∧ p.offset = c.offset

/-- The store invariant of claim C6: consume events match earlier publish
events, and per topic the recorded publish offsets are strictly
increasing (hence never reused). -/
def StoreOK (store : List SEvent) : Prop :=
  ConsMatch store
  ∧ ∀ tname, ((storePubsFor store tname).map PubEvent.offset).Pairwise (· < ·)

/-- Each topic of the running state mirrors exactly the publish events
recorded for it, with strictly increasing offsets, and topics absent from
the map have no recorded publishes. -/
def TopicsLinked (topics : List (String × Topic)) (store : List SEvent) :
    Prop :=
  (∀ k t, lookupStr topics k = some t →
     t.name = k ∧ storePubsFor store k = t.events
     ∧ ((t.events.map PubEvent.offset).Pairwise (· < ·)))
  ∧ (∀ k, lookupStr topics k = none → storePubsFor store k = [])

/-- Engine-state invariant maintained by the execution loop. -/
def EngineInv (st : WState) : Prop :=
  TopicsLinked st.topics st.store ∧ ConsMatch st.store

/-- Name and events of a topic, preserved by consumption (which only
moves cursors). -/
def topicEvs (t1 t2 : Topic) : Prop :=
  t2.name = t1.name ∧ t2.events = t1.events

/-- Invariant threaded through the `_publish_events` fold: each topic's
events are the publishes recorded before this iteration plus the ones
collected so far, still strictly increasing. -/
def PubFoldInv (store : List SEvent) (acc : PubFold) : Prop :=
  (∀ k t, lookupStr acc.topics k = some t →
     t.name = k ∧ storePubsFor store k ++ pubsFor acc.pubs k = t.events
     ∧ ((t.events.map PubEvent.offset).Pairwise (· < ·)))
  ∧ (∀ k, lookupStr acc.topics k = none →
     storePubsFor store k = [] ∧ pubsFor acc.pubs k = [])

/-- The readiness test of the resumption re-enqueue loop (lines 376-377):
the subscriber can still consume from the event's topic and all its
subscriptions are satisfied, evaluated against a fixed topic state. -/
def readyTest (w : Workflow) (tps : List (String × Topic)) (pe : PubEvent)
    (nm : String) : Bool :=
  match lookupStr w.nodes nm with
  | none => false
  | some node =>
      (match lookupStr tps pe.topic_name with
       | none => false
       | some t => t.can_consume nm) && can_execute tps node

/-- The subscribers of a stored publish event that can still consume and
are ready, evaluated against a fixed topic state (the resumption branch
enqueues exactly these, in order). -/
def subscribersReady (w : Workflow) (tps : List (String × Topic))
    (pe : PubEvent) : List String :=
  match lookupStr w.topic_nodes pe.topic_name with
  | none => []
  | some ns => ns.filter (readyTest w tps pe)

/-- Everything of a topic except the message payloads: name, the offsets
of its events and the consumer cursors.  The human-input merge of the
resumption branch changes only payload data, so it preserves this. -/
def topicCC (t1 t2 : Topic) : Prop :=
  t2.name = t1.name
  ∧ t2.events.map PubEvent.offset = t1.events.map PubEvent.offset
  ∧ t2.consumption_offsets = t1.consumption_offsets

/-- The stored publish event with the new human input merged in. -/
def appendedEvent (pe : PubEvent) (input : List Message) : PubEvent :=
  { pe with data := appendData pe.data input }


/-! ### Part C: event serialization (claim C8) -/

/-- JSON values, the common target of `to_dict`/`json.dumps` and source
of `from_dict`/`json.loads`.  `json.dumps` followed by `json.loads` is
the identity on JSON-able values, so the dumped string is modelled by
the JSON value itself. -/
inductive Json where
  | str (s : String)
  | num (n : Nat)
  | null
  | arr (elems : List Json)
  | obj (fields : List (String × Json))

/-- Field access in a serialized dict. -/
def jlookup (fields : List (String × Json)) (k : String) : Option Json :=
  (fields.find? (fun p => p.1 == k)).map Prod.snd

def jstr : Json → Option String
  | .str s => some s
  | _ => none

def jnum : Json → Option Nat
  | .num n => some n
  | _ => none

/-- An optional string field (pydantic renders a missing value as
null). -/
def optStrJson : Option String → Json
  | some s => .str s
  | none => .null

def joptStr : Json → Option (Option String)
  | .str s => some (some s)
  | .null => some none
  | _ => none

def strListAux : List Json → Option (List String)
  | [] => some []
  | j :: rest =>
      match j with
      | .str s => (strListAux rest).map (fun l => s :: l)
      | _ => none

def jstrList : Json → Option (List String)
  | .arr l => strListAux l
  | _ => none

/-- Modelled from the spec: pydantic's JSON rendering of a `Message`
(spec section 6 describes the persisted shape; message.py is not among
the provided sources). -/
def Message.to_json (m : Message) : Json :=
  .obj [("role", .str m.role), ("content", optStrJson m.content),
        ("tool_call_id", optStrJson m.tool_call_id),
        ("tool_calls", .arr (m.tool_calls.map Json.str)),
        ("timestamp", .num m.timestamp)]

/-- Modelled from the spec: `Message.model_validate` on a JSON value. -/
def message_from_json (j : Json) : Option Message :=
  match j with
  | .obj f => do
      let role ← (jlookup f "role").bind jstr
      let content ← (jlookup f "content").bind joptStr
      let tcid ← (jlookup f "tool_call_id").bind joptStr
      let tcs ← (jlookup f "tool_calls").bind jstrList
      let ts ← (jlookup f "timestamp").bind jnum
      some { role := role, content := content, tool_call_id := tcid
             tool_calls := tcs, timestamp := ts }
  | _ => none

def msgListAux : List Json → Option (List Message)
  | [] => some []
  | j :: rest =>
      match message_from_json j with
      | some m => (msgListAux rest).map (fun l => m :: l)
      | none => none

/-- `json.dumps(self.data, default=to_jsonable_python)` on the
`Union[Message, List[Message]]` payload: a single message dumps to a
JSON object, a list to a JSON array. -/
def dumpsData : MData → Json
  | .one m => m.to_json
  | .many l => .arr (l.map Message.to_json)

/-- `PublishToTopicEvent.from_dict` payload parsing (lines 44-48):
`if isinstance(data_dict, list)` validate as `List[Message]`, else
validate as a single `Message`. -/
def loadsDataUnion (j : Json) : Option MData :=
  match j with
  | .arr l => (msgListAux l).map MData.many
  | _ => (message_from_json j).map MData.one

/-- `NodeRespondEvent.from_dict` payload parsing (lines 42-44): always
`TypeAdapter(List[Message])` — a JSON object (a dumped single message)
fails validation. -/
def loadsDataList (j : Json) : Option (List Message) :=
  match j with
  | .arr l => msgListAux l
  | _ => none

def ExecutionContext.to_json (c : ExecutionContext) : Json :=
  .obj [("conversation_id", .str c.conversation_id),
        ("execution_id", .str c.execution_id),
        ("assistant_request_id", .str c.assistant_request_id)]

/-- Modelled from the spec: `ExecutionContext.model_validate`. -/
def context_from_json (j : Json) : Option ExecutionContext :=
  match j with
  | .obj f => do
      let cid ← (jlookup f "conversation_id").bind jstr
      let eid ← (jlookup f "execution_id").bind jstr
      let rid ← (jlookup f "assistant_request_id").bind jstr
      some { conversation_id := cid, execution_id := eid
             assistant_request_id := rid }
  | _ => none

/-- `PublishToTopicEvent` as persisted (publish_to_topic_event.py lines
13-19 plus the event.py base fields, which are not among the provided
sources and follow spec section 6). -/
structure PublishToTopicEvent where
  event_id : String
  event_type : String
  timestamp : Nat
  execution_context : ExecutionContext
  consumed_event_ids : List String
  publisher_name : String
  publisher_type : String
  topic_name : String
  offset : Nat
  data : MData
deriving DecidableEq, Repr

/-- `PublishToTopicEvent.to_dict` (lines 21-36): the event-context
block, the base event dict and the dumped payload. -/
def PublishToTopicEvent.to_dict (e : PublishToTopicEvent) : Json :=
  .obj [("event_context", .obj [
          ("consumed_event_ids", .arr (e.consumed_event_ids.map Json.str)),
          ("publisher_name", .str e.publisher_name),
          ("publisher_type", .str e.publisher_type),
          ("topic_name", .str e.topic_name),
          ("offset", .num e.offset),
          ("execution_context", e.execution_context.to_json)]),
        ("event_id", .str e.event_id),
        ("event_type", .str e.event_type),
        ("timestamp", .num e.timestamp),
        ("data", dumpsData e.data)]

/-- `PublishToTopicEvent.from_dict` (lines 38-62). -/
def PublishToTopicEvent.from_dict (j : Json) : Option PublishToTopicEvent :=
  match j with
  | .obj f => do
      let ecf ← match jlookup f "event_context" with
        | some (.obj g) => some g
        | _ => none
      let ctx ← (jlookup ecf "execution_context").bind context_from_json
      let dataObj ← (jlookup f "data").bind loadsDataUnion
      let eid ← (jlookup f "event_id").bind jstr
      let ety ← (jlookup f "event_type").bind jstr
      let ts ← (jlookup f "timestamp").bind jnum
      let cids ← (jlookup ecf "consumed_event_ids").bind jstrList
      let pn ← (jlookup ecf "publisher_name").bind jstr
      let pt ← (jlookup ecf "publisher_type").bind jstr
      let tn ← (jlookup ecf "topic_name").bind jstr
      let off ← (jlookup ecf "offset").bind jnum
      some { event_id := eid, event_type := ety, timestamp := ts
             execution_context := ctx, consumed_event_ids := cids
             publisher_name := pn, publisher_type := pt, topic_name := tn
             offset := off, data := dataObj }
  | _ => none

/-- Modelled from the spec: `ConsumeFromTopicEvent` as persisted
(consume_from_topic_event.py is not among the provided sources; fields
follow spec sections 3 and 6, mirroring the publish event with consumer
fields). -/
structure ConsumeFromTopicEvent where
  event_id : String
  event_type : String
  timestamp : Nat
  execution_context : ExecutionContext
  consumer_name : String
  consumer_type : String
  topic_name : String
  offset : Nat
  data : MData
deriving DecidableEq, Repr

/-- Modelled from the spec: `ConsumeFromTopicEvent.to_dict`. -/
def ConsumeFromTopicEvent.to_dict (e : ConsumeFromTopicEvent) : Json :=
  .obj [("event_context", .obj [
          ("consumer_name", .str e.consumer_name),
          ("consumer_type", .str e.consumer_type),
          ("topic_name", .str e.topic_name),
          ("offset", .num e.offset),
          ("execution_context", e.execution_context.to_json)]),
        ("event_id", .str e.event_id),
        ("event_type", .str e.event_type),
        ("timestamp", .num e.timestamp),
        ("data", dumpsData e.data)]

/-- Modelled from the spec: `ConsumeFromTopicEvent.from_dict` (like the
publish event, both payload shapes are accepted). -/
def ConsumeFromTopicEvent.from_dict (j : Json) : Option ConsumeFromTopicEvent :=
  match j with
  | .obj f => do
      let ecf ← match jlookup f "event_context" with
        | some (.obj g) => some g
        | _ => none
      let ctx ← (jlookup ecf "execution_context").bind context_from_json
      let dataObj ← (jlookup f "data").bind loadsDataUnion
      let eid ← (jlookup f "event_id").bind jstr
      let ety ← (jlookup f "event_type").bind jstr
      let ts ← (jlookup f "timestamp").bind jnum
      let cn ← (jlookup ecf "consumer_name").bind jstr
      let ct ← (jlookup ecf "consumer_type").bind jstr
      let tn ← (jlookup ecf "topic_name").bind jstr
      let off ← (jlookup ecf "offset").bind jnum
      some { event_id := eid, event_type := ety, timestamp := ts
             execution_context := ctx, consumer_name := cn
             consumer_type := ct, topic_name := tn
             offset := off, data := dataObj }
  | _ => none

def consListAux : List Json → Option (List ConsumeFromTopicEvent)
  | [] => some []
  | j :: rest =>
      match ConsumeFromTopicEvent.from_dict j with
      | some c => (consListAux rest).map (fun l => c :: l)
      | none => none

/-- `NodeRespondEvent` (node_respond_event.py lines 17-22 plus the
node_event.py base fields, which are not among the provided sources and
follow spec section 6). -/
structure NodeRespondEvent where
  event_id : String
  event_type : String
  timestamp : Nat
  execution_context : ExecutionContext
  node_name : String
  node_type : String
  input_data : List ConsumeFromTopicEvent
  output_data : MData
deriving DecidableEq, Repr

/-- `NodeRespondEvent.to_dict` (lines 24-31): the node-event envelope
and a data block holding the consumed events and the dumped output. -/
def NodeRespondEvent.to_dict (e : NodeRespondEvent) : Json :=
  .obj [("event_context", .obj [
          ("node_name", .str e.node_name),
          ("node_type", .str e.node_type),
          ("execution_context", e.execution_context.to_json)]),
        ("event_id", .str e.event_id),
        ("event_type", .str e.event_type),
        ("timestamp", .num e.timestamp),
        ("data", .obj [
          ("input_data", .arr (e.input_data.map ConsumeFromTopicEvent.to_dict)),
          ("output_data", dumpsData e.output_data)])]

/-- `NodeRespondEvent.from_dict` (lines 33-45): the output payload is
always validated as `List[Message]`. -/
def NodeRespondEvent.from_dict (j : Json) : Option NodeRespondEvent :=
  match j with
  | .obj f => do
      let ecf ← match jlookup f "event_context" with
        | some (.obj g) => some g
        | _ => none
      let ctx ← (jlookup ecf "execution_context").bind context_from_json
      let eid ← (jlookup f "event_id").bind jstr
      let ety ← (jlookup f "event_type").bind jstr
      let ts ← (jlookup f "timestamp").bind jnum
      let nn ← (jlookup ecf "node_name").bind jstr
      let nt ← (jlookup ecf "node_type").bind jstr
      let dataF ← match jlookup f "data" with
        | some (.obj g) => some g
        | _ => none
      let inputs ← match jlookup dataF "input_data" with
        | some (.arr l) => consListAux l
        | _ => none
      let outMsgs ← (jlookup dataF "output_data").bind loadsDataList
      some { event_id := eid, event_type := ety, timestamp := ts
             execution_context := ctx, node_name := nn, node_type := nt
             input_data := inputs, output_data := MData.many outMsgs }
  | _ => none


/-! ### Concrete instances used by counterexamples and witnesses -/

/-- A tool-result message for call id `x`. -/
def resA : Message :=
  { role := "tool", content := some "42", tool_call_id := some "x"
    tool_calls := [], timestamp := 0 }

/-- An assistant message carrying the tool call `x`. -/
def callB : Message :=
  { role := "assistant", content := none, tool_call_id := none
    tool_calls := ["x"], timestamp := 1 }

/-- Publish event A: the tool-result event. -/
def eA : TopicEvent :=
  { event_id := "A", is_publish := true, topic_name := "t_res", offset := 0
    consumed_event_ids := [], data := .many [resA] }

/-- Publish event B, which consumed A and carries the tool call. -/
def eB : TopicEvent :=
  { event_id := "B", is_publish := true, topic_name := "t_llm", offset := 0
    consumed_event_ids := ["A"], data := .many [callB] }

/-- The node's directly consumed event for B. -/
def cB : TopicEvent :=
  { event_id := "C", is_publish := false, topic_name := "t_llm", offset := 0
    consumed_event_ids := [], data := .many [callB] }

/-- An assistant message listing two tool calls, in the order a then b. -/
def call2 : Message :=
  { role := "assistant", content := none, tool_call_id := none
    tool_calls := ["a", "b"], timestamp := 0 }

/-- Tool result for call a. -/
def ra : Message :=
  { role := "tool", content := some "ra", tool_call_id := some "a"
    tool_calls := [], timestamp := 1 }

/-- Tool result for call b. -/
def rb : Message :=
  { role := "tool", content := some "rb", tool_call_id := some "b"
    tool_calls := [], timestamp := 2 }

/-- A consume event carrying the two-call message and both results. -/
def cE : TopicEvent :=
  { event_id := "E", is_publish := false, topic_name := "t", offset := 0
    consumed_event_ids := [], data := .many [call2, ra, rb] }

/-- Entry topic instance. -/
def entryT : Topic :=
  { name := AGENT_INPUT_TOPIC, kind := TopicKind.entry, events := []
    consumption_offsets := [] }

/-- Output (terminal) topic instance. -/
def outT : Topic :=
  { name := AGENT_OUTPUT_TOPIC, kind := TopicKind.output, events := []
    consumption_offsets := [] }

/-- A single node reading the entry topic and writing the output topic. -/
def nodeEx : Node :=
  { name := "n1", type := "LLMNode"
    subscribed_expressions := [TopicExpr.topic entryT]
    publish_to := [outT], is_stream_command := false }

/-- A streaming node (`LLMStreamResponseCommand`) with the same wiring. -/
def streamNodeEx : Node :=
  { name := "n2", type := "LLMNode"
    subscribed_expressions := [TopicExpr.topic entryT]
    publish_to := [outT], is_stream_command := true }

/-- The workflow `buildWorkflow [nodeEx]` produces. -/
def wEx : Workflow :=
  { name := "EventDrivenWorkflow", type := "EventDrivenWorkflow"
    nodes := [("n1", nodeEx)]
    topics := [(AGENT_INPUT_TOPIC, entryT), (AGENT_OUTPUT_TOPIC, outT)]
    topic_nodes := [(AGENT_INPUT_TOPIC, ["n1"])] }

/-- The workflow `buildWorkflow [streamNodeEx]` produces. -/
def wExS : Workflow :=
  { name := "EventDrivenWorkflow", type := "EventDrivenWorkflow"
    nodes := [("n2", streamNodeEx)]
    topics := [(AGENT_INPUT_TOPIC, entryT), (AGENT_OUTPUT_TOPIC, outT)]
    topic_nodes := [(AGENT_INPUT_TOPIC, ["n2"])] }

def ctx0 : ExecutionContext :=
  { conversation_id := "c", execution_id := "e", assistant_request_id := "r" }

def msg1 : Message :=
  { role := "user", content := some "hi", tool_call_id := none
    tool_calls := [], timestamp := 5 }

def outMsg : Message :=
  { role := "assistant", content := some "yo", tool_call_id := none
    tool_calls := [], timestamp := 6 }

/-- A state whose topics are all empty and whose queue holds node n1. -/
def st0 : WState :=
  { topics := resetTopics wEx.topics, queue := ["n1"], store := [] }

/-- A state for the streaming workflow whose queue holds node n2. -/
def stS : WState :=
  { topics := resetTopics wExS.topics, queue := ["n2"], store := [] }

/-- The entry publish event of a fresh run of wEx with input [msg1]. -/
def entryPubEx : PubEvent :=
  { event_id := "", ctx := ctx0, topic_name := AGENT_INPUT_TOPIC, offset := 0
    publisher_name := "EventDrivenWorkflow"
    publisher_type := "EventDrivenWorkflow"
    consumed_event_ids := [], is_output := false
    data := MsgSource.drained [msg1] }

/-- The state `initial_workflow wEx ctx0 [msg1] []` produces. -/
def stInit : WState :=
  { topics := [(AGENT_INPUT_TOPIC,
      { name := AGENT_INPUT_TOPIC, kind := TopicKind.entry
        events := [entryPubEx], consumption_offsets := [] }),
      (AGENT_OUTPUT_TOPIC, outT)]
    queue := ["n1"]
    store := [SEvent.pub entryPubEx] }


/-- A concrete publish event with a single-message payload. -/
def pubToTopicEx : PublishToTopicEvent :=
  { event_id := "e1", event_type := "PublishToTopic", timestamp := 3
    execution_context := ctx0, consumed_event_ids := ["a", "b"]
    publisher_name := "n1", publisher_type := "LLMNode"
    topic_name := "agent_input", offset := 0, data := MData.one msg1 }

/-- A concrete consume event carried in a node-respond event. -/
def consEvEx : ConsumeFromTopicEvent :=
  { event_id := "e0", event_type := "ConsumeFromTopic", timestamp := 2
    execution_context := ctx0, consumer_name := "n1"
    consumer_type := "LLMNode", topic_name := "agent_input", offset := 0
    data := MData.many [msg1] }

/-- A node-respond event whose output payload is a single message. -/
def nodeRespondOneEx : NodeRespondEvent :=
  { event_id := "e2", event_type := "NodeRespond", timestamp := 4
    execution_context := ctx0, node_name := "n1", node_type := "LLMNode"
    input_data := [consEvEx], output_data := MData.one outMsg }

/-- The same node-respond event with a list payload. -/
def nodeRespondManyEx : NodeRespondEvent :=
  { nodeRespondOneEx with output_data := MData.many [outMsg] }


/-! ### Lemmas about the tool-call re-interleaving pass -/

theorem toolResultLookup_tool_call_id {messages : List Message} {cid : String}
    {m : Message} (h : toolResultLookup messages cid = some m) :
    m.tool_call_id = some cid := by
  have hm := List.mem_of_mem_getLast? h
  have := (List.mem_filter.mp hm).2
  simpa using this

theorem mkToolResult_tool_call_id (messages : List Message) (cid : String) :
    (mkToolResult messages cid).tool_call_id = some cid := by
  unfold mkToolResult
  cases h : toolResultLookup messages cid with
  | none => rfl
  | some m => exact toolResultLookup_tool_call_id h

theorem mkToolResult_of_lookup_none {messages : List Message} {cid : String}
    (h : toolResultLookup messages cid = none) :
    mkToolResult messages cid = syntheticToolMessage cid := by
  unfold mkToolResult syntheticToolMessage
  rw [h]

/-- Every element of the re-interleaved list is either one of the scanned
messages or a looked-up / synthesized tool result for a call id carried by
a scanned message. -/
theorem mem_interleaveToolResults {orig : List Message} {l : List Message}
    {m : Message} (h : m ∈ interleaveToolResults orig l) :
    m ∈ l ∨ ∃ x ∈ l, ∃ cid ∈ x.tool_calls, m = mkToolResult orig cid := by
  induction l with
  | nil => simp [interleaveToolResults] at h
  | cons x rest ih =>
      by_cases hx : x.tool_calls = []
      · simp only [interleaveToolResults, if_pos hx, List.mem_cons] at h
        rcases h with h | h
        · exact Or.inl (by simp [h])
        · rcases ih h with h' | ⟨y, hy, cid, hcid, hm⟩
          · exact Or.inl (List.mem_cons_of_mem _ h')
          · exact Or.inr ⟨y, List.mem_cons_of_mem _ hy, cid, hcid, hm⟩
      · simp only [interleaveToolResults, if_neg hx, List.mem_cons,
          List.mem_append, List.mem_reverse, List.mem_map] at h
        rcases h with h | ⟨cid, hcid, hm⟩ | h
        · exact Or.inl (by simp [h])
        · exact Or.inr ⟨x, List.mem_cons_self _ _, cid, hcid, hm.symm⟩
        · rcases ih h with h' | ⟨y, hy, cid, hcid, hm⟩
          · exact Or.inl (List.mem_cons_of_mem _ h')
          · exact Or.inr ⟨y, List.mem_cons_of_mem _ hy, cid, hcid, hm⟩

/-- The re-interleaving pass only inserts tool-result messages (whose
`tool_call_id` is set), so filtering them out recovers exactly the scanned
list. -/
theorem filter_interleaveToolResults (orig : List Message) (l : List Message)
    (hl : ∀ m ∈ l, m.tool_call_id = none) :
    (interleaveToolResults orig l).filter (fun m => m.tool_call_id = none) = l := by
  induction l with
  | nil => simp [interleaveToolResults]
  | cons x rest ih =>
      have hx0 : x.tool_call_id = none := hl x (List.mem_cons_self _ _)
      have hrest : ∀ m ∈ rest, m.tool_call_id = none :=
        fun m hm => hl m (List.mem_cons_of_mem _ hm)
      by_cases hx : x.tool_calls = []
      · simp only [interleaveToolResults, if_pos hx, List.filter_cons]
        rw [if_pos (by simpa using hx0), ih hrest]
      · simp only [interleaveToolResults, if_neg hx, List.filter_cons,
          List.filter_append]
        rw [if_pos (by simpa using hx0)]
        have hblock :
            ((x.tool_calls.map (mkToolResult orig)).reverse).filter
              (fun m => m.tool_call_id = none) = [] := by
          rw [List.filter_eq_nil_iff]
          intro a ha
          rcases List.mem_map.mp (List.mem_reverse.mp ha) with ⟨cid, _, hcid⟩
          simp [← hcid, mkToolResult_tool_call_id]
        rw [hblock, ih hrest]
        rfl

/-- Filtering distributes over flattening. -/
theorem filter_flatten_message (p : Message → Bool) (ls : List (List Message)) :
    ls.flatten.filter p = (ls.map (fun l => l.filter p)).flatten := by
  induction ls with
  | nil => rfl
  | cons l rest ih => simp [List.filter_append, ih]

/-- Block structure of the re-interleaved list: a scanned message (one
whose `tool_call_id` is unset) at position `i` is immediately followed by
the tool-result block for its `tool_calls`, in reverse listing order. -/
theorem interleaveToolResults_block (orig : List Message) :
    ∀ (l : List Message), (∀ m ∈ l, m.tool_call_id = none) →
    ∀ (i : Nat) (m : Message),
      (interleaveToolResults orig l)[i]? = some m →
      m.tool_call_id = none →
      ((interleaveToolResults orig l).drop (i + 1)).take m.tool_calls.length
        = (m.tool_calls.map (mkToolResult orig)).reverse := by
  intro l
  induction l with
  | nil => intro _ i m h; simp [interleaveToolResults] at h
  | cons x rest ih =>
      intro hl i m hget hmnone
      have hrest : ∀ m ∈ rest, m.tool_call_id = none :=
        fun m hm => hl m (List.mem_cons_of_mem _ hm)
      by_cases hx : x.tool_calls = []
      · simp only [interleaveToolResults, if_pos hx] at hget ⊢
        match i, hget with
        | 0, hget =>
            have hmx : x = m := by simpa using hget
            subst hmx
            simp [hx]
        | (i' + 1), hget =>
            have hget' : (interleaveToolResults orig rest)[i']? = some m := by
              simpa using hget
            have := ih hrest i' m hget' hmnone
            simpa using this
      · simp only [interleaveToolResults, if_neg hx] at hget ⊢
        match i, hget with
        | 0, hget =>
            have hmx : x = m := by simpa using hget
            subst hmx
            have hlen : x.tool_calls.length
                = ((x.tool_calls.map (mkToolResult orig)).reverse).length := by
              simp
            rw [List.drop_succ_cons, List.drop_zero, hlen, List.take_left]
        | (i' + 1), hget =>
            have hget' :
                (((x.tool_calls.map (mkToolResult orig)).reverse)
                  ++ interleaveToolResults orig rest)[i']? = some m := by
              simpa using hget
            set block := (x.tool_calls.map (mkToolResult orig)).reverse with hblock
            by_cases hi : i' < block.length
            · exfalso
              rw [List.getElem?_append_left hi] at hget'
              have hmem : m ∈ block := by
                have := List.getElem?_mem hget'
                exact this
              rcases List.mem_map.mp (List.mem_reverse.mp hmem) with ⟨cid, _, hcid⟩
              rw [← hcid, mkToolResult_tool_call_id] at hmnone
              exact Option.noConfusion hmnone
            · push_neg at hi
              rw [List.getElem?_append_right hi] at hget'
              have hIH := ih hrest (i' - block.length) m hget' hmnone
              have hdrop :
                  (x :: (block ++ interleaveToolResults orig rest)).drop (i' + 1 + 1)
                    = (interleaveToolResults orig rest).drop
                        (i' - block.length + 1) := by
                rw [List.drop_succ_cons]
                have h1 : i' + 1 = block.length + (i' - block.length + 1) := by
                  omega
                rw [h1, List.drop_append]
              rw [hdrop]
              exact hIH


/-! ### Lemmas about the spec-modelled topological sort -/

theorem foldl_pickMin_mem :
    ∀ (l : List TopicEvent) (b : Option TopicEvent) (e : TopicEvent),
      l.foldl pickMin b = some e → e ∈ l ∨ b = some e := by
  intro l
  induction l with
  | nil => intro b e h; exact Or.inr h
  | cons x xs ih =>
      intro b e h
      rcases ih _ e h with h' | h'
      · exact Or.inl (List.mem_cons_of_mem _ h')
      · cases b with
        | none =>
            have : x = e := by simpa [pickMin] using h'
            exact Or.inl (by simp [this])
        | some bb =>
            by_cases hlt : x.offset < bb.offset
            · have : x = e := by simpa [pickMin, hlt] using h'
              exact Or.inl (by simp [this])
            · have : bb = e := by simpa [pickMin, hlt] using h'
              exact Or.inr (by simp [this])

theorem pickAvail_mem {pool rem : List TopicEvent} {e : TopicEvent}
    (h : pickAvail pool rem = some e) :
    e ∈ rem ∧ availB pool rem e = true := by
  unfold pickAvail at h
  rcases foldl_pickMin_mem _ _ _ h with h' | h'
  · exact ⟨(List.mem_filter.mp h').1, (List.mem_filter.mp h').2⟩
  · exact absurd h' (by simp)

theorem topoSort_subset {pool : List TopicEvent} :
    ∀ {fuel : Nat} {rem : List TopicEvent} {x : TopicEvent},
      x ∈ topoSort pool fuel rem → x ∈ rem := by
  intro fuel
  induction fuel with
  | zero => intro rem x h; simp [topoSort] at h
  | succ fuel ih =>
      intro rem x h
      unfold topoSort at h
      cases hpick : pickAvail pool rem with
      | none => rw [hpick] at h; simp at h
      | some e =>
          rw [hpick] at h
          rcases List.mem_cons.mp h with h' | h'
          · exact h' ▸ (pickAvail_mem hpick).1
          · exact List.mem_of_mem_erase (ih h')

theorem ids_nodup_erase {rem : List TopicEvent} (e : TopicEvent)
    (h : (rem.map TopicEvent.event_id).Nodup) :
    ((rem.erase e).map TopicEvent.event_id).Nodup :=
  h.sublist ((List.erase_sublist e rem).map TopicEvent.event_id)

theorem same_id_eq {l : List TopicEvent} {a b : TopicEvent}
    (h : (l.map TopicEvent.event_id).Nodup) (ha : a ∈ l) (hb : b ∈ l)
    (hid : a.event_id = b.event_id) : a = b :=
  List.inj_on_of_nodup_map h ha hb hid

theorem topoSort_ids_nodup {pool : List TopicEvent} :
    ∀ {fuel : Nat} {rem : List TopicEvent},
      (rem.map TopicEvent.event_id).Nodup →
      ((topoSort pool fuel rem).map TopicEvent.event_id).Nodup := by
  intro fuel
  induction fuel with
  | zero => intro rem _; simp [topoSort]
  | succ fuel ih =>
      intro rem hrem
      unfold topoSort
      cases hpick : pickAvail pool rem with
      | none => simp
      | some e =>
          have he : e ∈ rem := (pickAvail_mem hpick).1
          simp only [List.map_cons, List.nodup_cons]
          refine ⟨?_, ih (ids_nodup_erase e hrem)⟩
          intro hmem
          rcases List.mem_map.mp hmem with ⟨y, hy, hyid⟩
          have hy' : y ∈ rem.erase e := topoSort_subset hy
          have hy'' : y ∈ rem := List.mem_of_mem_erase hy'
          have : y = e := same_id_eq hrem hy'' he hyid
          subst this
          exact ((List.Nodup.of_map _ hrem).not_mem_erase) hy'

theorem availB_spec {pool rem : List TopicEvent} {e : TopicEvent}
    (h : availB pool rem e = true) {a : TopicEvent} (ha : a ∈ rem)
    (hid : a.event_id ∈ predIds pool e) : a.event_id = e.event_id := by
  unfold availB at h
  rw [Bool.not_eq_true', List.any_eq_false] at h
  have hx := h a ha
  by_contra hne
  apply hx
  have h1 : (predIds pool e).contains a.event_id = true := by
    rw [List.contains_iff_exists_mem_beq]
    exact ⟨a.event_id, hid, by simp⟩
  have h2 : (a.event_id != e.event_id) = true := by
    simpa using hne
  rw [h1, h2]
  rfl

theorem kahn_pred_before {pool : List TopicEvent} :
    ∀ {fuel : Nat} {rem : List TopicEvent},
      (rem.map TopicEvent.event_id).Nodup →
      ∀ {i : Nat} {b : TopicEvent}, (topoSort pool fuel rem)[i]? = some b →
      ∀ {a : TopicEvent}, a ∈ rem → a.event_id ∈ predIds pool b → a ≠ b →
      ∃ j, j < i ∧ (topoSort pool fuel rem)[j]? = some a := by
  intro fuel
  induction fuel with
  | zero => intro rem _ i b h; simp [topoSort] at h
  | succ fuel ih =>
      intro rem hrem i b hget a ha hid hne
      unfold topoSort at hget ⊢
      cases hpick : pickAvail pool rem with
      | none => rw [hpick] at hget; simp at hget
      | some e =>
          rw [hpick] at hget
          match i, hget with
          | 0, hget =>
              exfalso
              have hbe : e = b := by simpa using hget
              subst hbe
              have := availB_spec (pickAvail_mem hpick).2 ha hid
              exact hne (same_id_eq hrem ha (pickAvail_mem hpick).1 this)
          | (i' + 1), hget =>
              have hget' : (topoSort pool fuel (rem.erase e))[i']? = some b := by
                simpa using hget
              by_cases hae : a = e
              · exact ⟨0, Nat.succ_pos _, by simp [hae]⟩
              · have ha' : a ∈ rem.erase e := (List.mem_erase_of_ne hae).mpr ha
                obtain ⟨j, hj, hSj⟩ :=
                  ih (ids_nodup_erase e hrem) hget' ha' hid hne
                exact ⟨j + 1, by omega, by simpa using hSj⟩

/-! ### Lemmas about the spec-modelled closure construction -/

theorem dedupeByIdAux_subset : ∀ {l : List TopicEvent} {seen : List String}
    {x : TopicEvent}, x ∈ dedupeByIdAux seen l → x ∈ l := by
  intro l
  induction l with
  | nil => intro seen x h; simp [dedupeByIdAux] at h
  | cons e es ih =>
      intro seen x h
      rw [dedupeByIdAux] at h
      by_cases hmem : e.event_id ∈ seen
      · rw [if_pos hmem] at h
        exact List.mem_cons_of_mem _ (ih h)
      · rw [if_neg hmem] at h
        rcases List.mem_cons.mp h with h' | h'
        · exact h' ▸ List.mem_cons_self _ _
        · exact List.mem_cons_of_mem _ (ih h')

theorem dedupeById_subset {l : List TopicEvent} {x : TopicEvent}
    (h : x ∈ dedupeById l) : x ∈ l :=
  dedupeByIdAux_subset h

theorem dedupeByIdAux_nodup_avoid : ∀ (l : List TopicEvent) (seen : List String),
    ((dedupeByIdAux seen l).map TopicEvent.event_id).Nodup
    ∧ ∀ x ∈ dedupeByIdAux seen l, x.event_id ∉ seen := by
  intro l
  induction l with
  | nil => intro seen; constructor <;> simp [dedupeByIdAux]
  | cons e es ih =>
      intro seen
      rw [dedupeByIdAux]
      by_cases hmem : e.event_id ∈ seen
      · rw [if_pos hmem]
        exact ih seen
      · rw [if_neg hmem]
        obtain ⟨ihn, ihs⟩ := ih (e.event_id :: seen)
        refine ⟨?_, ?_⟩
        · simp only [List.map_cons, List.nodup_cons]
          refine ⟨?_, ihn⟩
          intro hc
          rcases List.mem_map.mp hc with ⟨y, hy, hyid⟩
          exact (ihs y hy) (by rw [hyid]; exact List.mem_cons_self _ _)
        · intro x hx
          rcases List.mem_cons.mp hx with h' | h'
          · exact h' ▸ hmem
          · intro hc
            exact (ihs x h') (List.mem_cons_of_mem _ hc)

theorem dedupeById_ids_nodup (l : List TopicEvent) :
    ((dedupeById l).map TopicEvent.event_id).Nodup :=
  (dedupeByIdAux_nodup_avoid l []).1

theorem closureAux_subset {pool : List TopicEvent} :
    ∀ {fuel : Nat} {acc : List TopicEvent} {x : TopicEvent},
      x ∈ closureAux pool fuel acc → x ∈ acc ∨ x ∈ pool := by
  intro fuel
  induction fuel with
  | zero => intro acc x h; exact Or.inl h
  | succ fuel ih =>
      intro acc x h
      rw [closureAux] at h
      by_cases hns : newPreds pool acc = []
      · rw [if_pos hns] at h; exact Or.inl h
      · rw [if_neg hns] at h
        rcases ih h with h' | h'
        · rcases List.mem_append.mp h' with h'' | h''
          · exact Or.inl h''
          · exact Or.inr (List.mem_of_mem_filter h'')
        · exact Or.inr h'

theorem closureAux_ids_nodup {pool : List TopicEvent}
    (hpool : (pool.map TopicEvent.event_id).Nodup) :
    ∀ {fuel : Nat} {acc : List TopicEvent},
      (acc.map TopicEvent.event_id).Nodup →
      ((closureAux pool fuel acc).map TopicEvent.event_id).Nodup := by
  intro fuel
  induction fuel with
  | zero => intro acc h; exact h
  | succ fuel ih =>
      intro acc hacc
      rw [closureAux]
      by_cases hns : newPreds pool acc = []
      · rw [if_pos hns]; exact hacc
      · rw [if_neg hns]
        refine ih ?_
        rw [List.map_append, List.nodup_append]
        refine ⟨hacc, ?_, ?_⟩
        · exact hpool.sublist ((List.filter_sublist _).map TopicEvent.event_id)
        · intro i hi hi'
          rcases List.mem_map.mp hi with ⟨q, hq, hqid⟩
          rcases List.mem_map.mp hi' with ⟨p, hp, hpid⟩
          have hcond := (List.mem_filter.mp hp).2
          rw [Bool.and_eq_true] at hcond
          have h2 := hcond.2
          rw [Bool.not_eq_true', List.any_eq_false] at h2
          have := h2 q hq
          apply this
          rw [beq_iff_eq, hqid, hpid]

/-- Ids of pool events not yet represented in the accumulator. -/
theorem newPreds_measure_lt {pool acc : List TopicEvent}
    (hns : newPreds pool acc ≠ []) :
    missingIds pool (acc ++ newPreds pool acc) < missingIds pool acc := by
  unfold missingIds
  apply Finset.card_lt_card
  rw [Finset.ssubset_iff_of_subset]
  · rcases List.exists_mem_of_ne_nil _ hns with ⟨p, hp⟩
    refine ⟨p.event_id, ?_, ?_⟩
    · rw [Finset.mem_sdiff]
      constructor
      · rw [List.mem_toFinset]
        exact List.mem_map_of_mem _ (List.mem_of_mem_filter hp)
      · rw [List.mem_toFinset]
        intro hmem
        rcases List.mem_map.mp hmem with ⟨q, hq, hqid⟩
        have hcond := (List.mem_filter.mp hp).2
        rw [Bool.and_eq_true] at hcond
        have h2 := hcond.2
        rw [Bool.not_eq_true', List.any_eq_false] at h2
        exact h2 q hq (beq_iff_eq.mpr hqid)
    · rw [Finset.mem_sdiff]
      intro hmem
      apply hmem.2
      rw [List.mem_toFinset]
      exact List.mem_map_of_mem _ (List.mem_append_right _ hp)
  · apply Finset.sdiff_subset_sdiff (le_refl _)
    intro i hi
    rw [List.mem_toFinset] at hi ⊢
    rw [List.map_append]
    exact List.mem_append_left _ hi

theorem closureAux_saturated {pool : List TopicEvent} :
    ∀ {fuel : Nat} {acc : List TopicEvent},
      missingIds pool acc < fuel →
      newPreds pool (closureAux pool fuel acc) = [] := by
  intro fuel
  induction fuel with
  | zero => intro acc h; omega
  | succ fuel ih =>
      intro acc hcard
      rw [closureAux]
      by_cases hns : newPreds pool acc = []
      · rw [if_pos hns]; exact hns
      · rw [if_neg hns]
        apply ih
        have := newPreds_measure_lt hns
        omega

theorem build_graph_saturated (roots pool : List TopicEvent) :
    newPreds pool (build_graph roots pool) = [] := by
  unfold build_graph
  apply closureAux_saturated
  calc missingIds pool (dedupeById roots)
      ≤ ((pool.map TopicEvent.event_id).toFinset).card :=
        Finset.card_le_card (Finset.sdiff_subset)
    _ ≤ (pool.map TopicEvent.event_id).length := List.toFinset_card_le _
    _ < pool.length + 1 := by rw [List.length_map]; omega

/-- Every predecessor id of a closure member that belongs to some pool
event is itself represented in the closure. -/
theorem build_graph_closed {roots pool : List TopicEvent} {e : TopicEvent}
    (he : e ∈ build_graph roots pool) {p : TopicEvent} (hp : p ∈ pool)
    (hid : p.event_id ∈ predIds pool e) :
    ∃ q ∈ build_graph roots pool, q.event_id = p.event_id := by
  have hsat := build_graph_saturated roots pool
  unfold newPreds at hsat
  rw [List.filter_eq_nil_iff] at hsat
  have := hsat p hp
  rw [Bool.not_eq_true, Bool.and_eq_false_iff] at this
  rcases this with h' | h'
  · exfalso
    rw [List.any_eq_false] at h'
    apply h' e he
    rw [List.contains_iff_exists_mem_beq]
    exact ⟨p.event_id, hid, by simp⟩
  · rw [Bool.not_eq_false', List.any_eq_true] at h'
    rcases h' with ⟨q, hq, hqid⟩
    exact ⟨q, hq, by simpa using hqid⟩

theorem build_graph_ids_nodup {roots pool : List TopicEvent}
    (hpool : (pool.map TopicEvent.event_id).Nodup) :
    ((build_graph roots pool).map TopicEvent.event_id).Nodup :=
  closureAux_ids_nodup hpool (dedupeById_ids_nodup roots)

theorem build_graph_mem_source {roots pool : List TopicEvent} {x : TopicEvent}
    (h : x ∈ build_graph roots pool) : x ∈ roots ∨ x ∈ pool := by
  rcases closureAux_subset h with h' | h'
  · exact Or.inl (dedupeById_subset h')
  · exact Or.inr h'

/-! ### Causal ordering of the topologically sorted events -/

theorem sorted_pred_before {roots pool : List TopicEvent}
    (H : ((roots ++ pool).map TopicEvent.event_id).Nodup)
    {i : Nat} {b : TopicEvent}
    (hb : (get_topology_sorted_events roots pool)[i]? = some b)
    {a : TopicEvent} (ha : a ∈ pool) (hid : a.event_id ∈ predIds pool b)
    (hne : a ≠ b) :
    ∃ j, j < i ∧ (get_topology_sorted_events roots pool)[j]? = some a := by
  have hpoolN : (pool.map TopicEvent.event_id).Nodup := by
    rw [List.map_append] at H
    exact H.of_append_right
  have hclN := @build_graph_ids_nodup roots _ hpoolN
  have hbS : b ∈ get_topology_sorted_events roots pool := List.getElem?_mem hb
  have hbcl : b ∈ build_graph roots pool := topoSort_subset hbS
  obtain ⟨q, hqcl, hqid⟩ := build_graph_closed hbcl ha hid
  have hq_eq : q = a := by
    have hq' : q ∈ roots ++ pool := by
      rcases build_graph_mem_source hqcl with h' | h'
      · exact List.mem_append_left _ h'
      · exact List.mem_append_right _ h'
    exact same_id_eq H hq' (List.mem_append_right _ ha) hqid
  subst hq_eq
  exact kahn_pred_before hclN hb hqcl hid hne

theorem consumedTrans_before {roots pool : List TopicEvent}
    (H : ((roots ++ pool).map TopicEvent.event_id).Nodup)
    {A B : TopicEvent} (t : Relation.TransGen (consumedEdge pool) A B) :
    ∀ {i : Nat}, (get_topology_sorted_events roots pool)[i]? = some B →
      ∃ j, j < i ∧ (get_topology_sorted_events roots pool)[j]? = some A := by
  induction t with
  | single h =>
      intro i hi
      exact sorted_pred_before H hi h.2.1 h.1 h.2.2
  | tail _ h ih =>
      intro i hi
      obtain ⟨k, hk, hSk⟩ := sorted_pred_before H hi h.2.1 h.1 h.2.2
      obtain ⟨j, hj, hSj⟩ := ih hSk
      exact ⟨j, lt_trans hj hk, hSj⟩

/-! ### Claim theorems: C1, C2, C9 -/

/-- C1 (corrected).  For every node invocation whose events carry distinct
event ids: (1) the topologically ordered event list delivered to the node
respects causality — if event B transitively consumed event A (through
`consumed_event_ids` backlinks resolved in the request's event pool), then
A is placed strictly before B; (2) the messages that are not tool-result
messages (whose `tool_call_id` is unset) appear in the command input
exactly in that causal event order.  The original claim — that EVERY
message of A appears before every message of B — fails, because the
tool-call re-interleaving pass moves tool-result messages next to the
message carrying the matching tool call (see the counterexample). -/
theorem claim_C1_corrected (roots pool : List TopicEvent)
    (H : ((roots ++ pool).map TopicEvent.event_id).Nodup) :
    (∀ (A B : TopicEvent) (i j : Nat),
       (get_topology_sorted_events roots pool)[i]? = some B →
       (get_topology_sorted_events roots pool)[j]? = some A →
       Relation.TransGen (consumedEdge pool) A B → j < i)
    ∧ (get_command_input roots pool).filter (fun m => m.tool_call_id = none)
        = ((get_topology_sorted_events roots pool).map
            (fun e => e.data.flat.filter (fun m => m.tool_call_id = none))).flatten := by
  constructor
  · intro A B i j hB hA t
    obtain ⟨j', hj', hSj'⟩ := consumedTrans_before H t hB
    have hpoolN : (pool.map TopicEvent.event_id).Nodup := by
      rw [List.map_append] at H
      exact H.of_append_right
    have hN : (get_topology_sorted_events roots pool).Nodup :=
      List.Nodup.of_map _ (topoSort_ids_nodup (build_graph_ids_nodup hpoolN))
    have hlt : j' < (get_topology_sorted_events roots pool).length := by
      rcases List.getElem?_eq_some.mp hSj' with ⟨h, _⟩
      exact h
    have : j' = j := List.getElem?_inj hlt hN (hSj'.trans hA.symm)
    omega
  · have hkept : ∀ m ∈ (flattened_input roots pool).filter
        (fun m => m.tool_call_id = none), m.tool_call_id = none := by
      intro m hm
      have := (List.mem_filter.mp hm).2
      simpa using this
    calc (get_command_input roots pool).filter (fun m => m.tool_call_id = none)
        = (flattened_input roots pool).filter (fun m => m.tool_call_id = none) :=
          filter_interleaveToolResults _ _ hkept
      _ = ((get_topology_sorted_events roots pool).map
            (fun e => e.data.flat)).flatten.filter
              (fun m => m.tool_call_id = none) := rfl
      _ = (((get_topology_sorted_events roots pool).map
            (fun e => e.data.flat)).map
              (fun l => l.filter (fun m => m.tool_call_id = none))).flatten :=
          filter_flatten_message _ _
      _ = ((get_topology_sorted_events roots pool).map
            (fun e => e.data.flat.filter (fun m => m.tool_call_id = none))).flatten := by
          rw [List.map_map]
          rfl

/-- C1 counterexample.  Event B consumed event A; A's only message is the
tool result `resA`, B's only message is `callB`, which carries the
matching tool call.  In the command input actually produced, `callB` (a
message of B) appears at position 0 and `resA` (a message of A) only
after it — so it is false that every message of A appears before every
message of B. -/
theorem claim_C1_counterexample :
    eB.consumed_event_ids = [eA.event_id]
    ∧ resA ∈ eA.data.flat
    ∧ callB ∈ eB.data.flat
    ∧ get_command_input [cB] [eA, eB] = [callB, resA, callB, resA]
    ∧ (get_command_input [cB] [eA, eB])[0]? = some callB
    ∧ (get_command_input [cB] [eA, eB])[1]? = some resA := by
  refine ⟨rfl, ?_, ?_, ?_, ?_, ?_⟩ <;> decide

/-- C1 witness: the corrected theorem applied to the concrete two-event
pool, at event positions 0 (for A) and 1 (for B). -/
theorem claim_C1_witness :
    (([cB] ++ [eA, eB]).map TopicEvent.event_id).Nodup ∧ (0 : Nat) < 1 :=
  ⟨by decide,
   (claim_C1_corrected [cB] [eA, eB] (by decide)).1 eA eB 1 0 (by decide)
     (by decide)
     (Relation.TransGen.single ⟨by decide, by decide, by decide⟩)⟩

/-- C2 (corrected).  In every command input, a scanned message (one with
`tool_call_id` unset) with tool calls is immediately followed by the block
of matching tool-result messages — one per listed call id, each carrying
that `tool_call_id`, with the synthetic empty tool message substituted
when no result exists, and execution continuing (the function is total) —
but the block is in REVERSE order of the `tool_calls` listing, not in
listing order as the original claim states (the Python loop inserts every
result at position i+1). -/
theorem claim_C2_corrected (node_input pool : List TopicEvent) (i : Nat)
    (m : Message)
    (hm : (get_command_input node_input pool)[i]? = some m)
    (hnone : m.tool_call_id = none) :
    ((get_command_input node_input pool).drop (i + 1)).take m.tool_calls.length
      = (m.tool_calls.map (mkToolResult (flattened_input node_input pool))).reverse
    ∧ (∀ cid ∈ m.tool_calls,
        (mkToolResult (flattened_input node_input pool) cid).tool_call_id
          = some cid)
    ∧ (∀ cid ∈ m.tool_calls,
        toolResultLookup (flattened_input node_input pool) cid = none →
        mkToolResult (flattened_input node_input pool) cid
          = syntheticToolMessage cid) := by
  refine ⟨?_, fun cid _ => mkToolResult_tool_call_id _ cid,
    fun cid _ h => mkToolResult_of_lookup_none h⟩
  have hkept : ∀ x ∈ (flattened_input node_input pool).filter
      (fun m => m.tool_call_id = none), x.tool_call_id = none := by
    intro x hx
    have := (List.mem_filter.mp hx).2
    simpa using this
  exact interleaveToolResults_block _ _ hkept i m hm hnone

/-- C2 counterexample.  The message `call2` lists tool calls in the order
a, b and both results exist, yet the message immediately following it in
the produced command input is the result for b, not the result for a —
the pairing is in reverse listing order. -/
theorem claim_C2_counterexample :
    (get_command_input [cE] [])[0]? = some call2
    ∧ call2.tool_calls = ["a", "b"]
    ∧ toolResultLookup (flattened_input [cE] []) "a" = some ra
    ∧ (get_command_input [cE] [])[1]? = some rb
    ∧ rb.tool_call_id = some "b"
    ∧ ¬((get_command_input [cE] [])[1]? = some ra) := by
  refine ⟨?_, rfl, ?_, ?_, rfl, ?_⟩ <;> decide

/-- C2 witness: the corrected theorem applied at the two-call message. -/
theorem claim_C2_witness :
    (get_command_input [cE] [])[0]? = some call2
    ∧ ((get_command_input [cE] []).drop 1).take call2.tool_calls.length
        = (call2.tool_calls.map (mkToolResult (flattened_input [cE] []))).reverse :=
  ⟨by decide, (claim_C2_corrected [cE] [] 0 call2 (by decide) (by decide)).1⟩

/-- C9 (confirmed).  Tool-result messages (with `tool_call_id` set) are
removed from the flattened input; any one surviving into the command
input is either the LAST recorded result for its call id or the synthetic
empty tool message, so of two results sharing a call id only the last
survives; and if no remaining (scanned) message references a call id in
its `tool_calls`, no message with that `tool_call_id` appears in the
command input at all — the unreferenced result is silently dropped. -/
theorem claim_C9_confirmed (node_input pool : List TopicEvent) (c : String) :
    (∀ m ∈ get_command_input node_input pool, m.tool_call_id = some c →
       toolResultLookup (flattened_input node_input pool) c = some m
       ∨ m = syntheticToolMessage c)
    ∧ ((∀ x ∈ flattened_input node_input pool,
          x.tool_call_id = none → c ∉ x.tool_calls) →
       ∀ m ∈ get_command_input node_input pool, m.tool_call_id ≠ some c) := by
  constructor
  · intro m hm hmc
    rcases mem_interleaveToolResults hm with h' | ⟨x, hx, cid, hcid, hm'⟩
    · have := (List.mem_filter.mp h').2
      rw [hmc] at this
      simp at this
    · have hcid_c : cid = c := by
        have := mkToolResult_tool_call_id (flattened_input node_input pool) cid
        rw [← hm', hmc] at this
        exact (Option.some_inj.mp this).symm
      subst hcid_c
      subst hm'
      cases h : toolResultLookup (flattened_input node_input pool) cid with
      | none => exact Or.inr (mkToolResult_of_lookup_none h)
      | some r => exact Or.inl (by simp [mkToolResult, h])
  · intro h m hm hmc
    rcases mem_interleaveToolResults hm with h' | ⟨x, hx, cid, hcid, hm'⟩
    · have := (List.mem_filter.mp h').2
      rw [hmc] at this
      simp at this
    · have hxmem := List.mem_filter.mp hx
      have hxnone : x.tool_call_id = none := by simpa using hxmem.2
      have hcid_c : cid = c := by
        have := mkToolResult_tool_call_id (flattened_input node_input pool) cid
        rw [← hm', hmc] at this
        exact (Option.some_inj.mp this).symm
      subst hcid_c
      exact h x hxmem.1 hxnone hcid

/-- C9 witness: the confirmed theorem applied at the two-call consume
event, for the unreferenced call id zz. -/
theorem claim_C9_witness :
    (∀ x ∈ flattened_input [cE] [], x.tool_call_id = none → "zz" ∉ x.tool_calls)
    ∧ ∀ m ∈ get_command_input [cE] [], m.tool_call_id ≠ some "zz" :=
  ⟨by decide, (claim_C9_confirmed [cE] [] "zz").2 (by decide)⟩

/-! ### Association list lemmas -/

theorem find?_map_update {α : Type} (k : String) (v : α) :
    ∀ (l : List (String × α)), (l.any (fun p => p.1 == k)) = true →
    (l.map (fun p => if p.1 == k then (k, v) else p)).find? (fun p => p.1 == k)
      = some (k, v) := by
  intro l
  induction l with
  | nil => intro h; simp at h
  | cons x xs ih =>
      intro h
      cases hx : (x.1 == k) with
      | true =>
          rw [List.map_cons, if_pos hx, List.find?_cons]
          simp
      | false =>
          rw [List.map_cons, if_neg (by simp [hx]), List.find?_cons, hx]
          apply ih
          rw [List.any_cons, hx] at h
          simpa using h

theorem find?_map_update_ne {α : Type} (k k' : String) (v : α) (hne : k' ≠ k) :
    ∀ (l : List (String × α)),
    (l.map (fun p => if p.1 == k then (k, v) else p)).find? (fun p => p.1 == k')
      = l.find? (fun p => p.1 == k') := by
  intro l
  induction l with
  | nil => rfl
  | cons x xs ih =>
      cases hx : (x.1 == k) with
      | true =>
          have hxk : x.1 = k := by simpa using hx
          have h1 : ((k, v).1 == k') = false := by simp [Ne.symm hne]
          have h2 : (x.1 == k') = false := by rw [hxk]; simp [Ne.symm hne]
          rw [List.map_cons, if_pos hx, List.find?_cons, List.find?_cons, h1, h2]
          exact ih
      | false =>
          cases hx' : (x.1 == k') with
          | true =>
              rw [List.map_cons, if_neg (by simp [hx]), List.find?_cons,
                List.find?_cons, hx']
          | false =>
              rw [List.map_cons, if_neg (by simp [hx]), List.find?_cons,
                List.find?_cons, hx']
              exact ih

theorem lookupStr_updateStr_self {α : Type} (l : List (String × α)) (k : String)
    (v : α) : lookupStr (updateStr l k v) k = some v := by
  unfold updateStr lookupStr
  by_cases h : (l.any (fun p => p.1 == k)) = true
  · rw [if_pos h, find?_map_update k v l h]
    rfl
  · rw [if_neg h]
    rw [List.find?_append]
    have hnone : l.find? (fun p => p.1 == k) = none := by
      rw [List.find?_eq_none]
      intro p hp
      rw [Bool.not_eq_true, List.any_eq_false] at h
      simpa using h p hp
    rw [hnone]
    simp [List.find?]

theorem lookupStr_updateStr_ne {α : Type} (l : List (String × α)) (k k' : String)
    (v : α) (hne : k' ≠ k) : lookupStr (updateStr l k v) k' = lookupStr l k' := by
  unfold updateStr lookupStr
  by_cases h : (l.any (fun p => p.1 == k)) = true
  · rw [if_pos h, find?_map_update_ne k k' v hne l]
  · rw [if_neg h]
    rw [List.find?_append]
    have hkk : (((k, v) : String × α).1 == k') = false := by
      simp [Ne.symm hne]
    have hnone : List.find? (fun p => p.1 == k') [(k, v)] = none := by
      rw [List.find?_cons, hkk]
      rfl
    rw [hnone]
    cases l.find? (fun p => p.1 == k') <;> simp

theorem lookupStr_resetTopics (topics : List (String × Topic)) (k : String) :
    lookupStr (resetTopics topics) k = (lookupStr topics k).map Topic.reset := by
  unfold resetTopics lookupStr
  induction topics with
  | nil => simp
  | cons x xs ih =>
      rw [List.map_cons]
      cases hx : (x.1 == k) with
      | true => rw [List.find?_cons, List.find?_cons, hx]; simp
      | false =>
          rw [List.find?_cons, List.find?_cons, hx]
          exact ih

theorem updateStr_keys_of_mem {α : Type} (l : List (String × α)) (k : String)
    (v : α) (h : (l.any (fun p => p.1 == k)) = true) :
    (updateStr l k v).map Prod.fst = l.map Prod.fst := by
  unfold updateStr
  rw [if_pos h, List.map_map]
  apply List.map_congr_left
  intro p _
  by_cases hp : (p.1 == k) = true
  · have : p.1 = k := by simpa using hp
    simp [Function.comp_apply, this]
  · have : p.1 ≠ k := by simpa using hp
    simp [Function.comp_apply, this]

theorem lookupStr_isSome_of_mem {α : Type} {l : List (String × α)}
    {p : String × α} (hp : p ∈ l) : (lookupStr l p.1).isSome := by
  unfold lookupStr
  rw [Option.isSome_map', List.find?_isSome]
  exact ⟨p, hp, by simp⟩

theorem lookupStr_isSome_any {α : Type} {l : List (String × α)} {k : String}
    (h : (lookupStr l k).isSome) : (l.any (fun p => p.1 == k)) = true := by
  unfold lookupStr at h
  rw [Option.isSome_map', List.find?_isSome] at h
  rw [List.any_eq_true]
  exact h

/-! ### Claim C7: build-time configuration errors -/

theorem builder_node_ok_nodup {acc : List (String × Node)} {n : Node}
    {acc' : List (String × Node)} (h : builder_node acc n = Except.ok acc')
    (hacc : (acc.map Prod.fst).Nodup) : (acc'.map Prod.fst).Nodup := by
  unfold builder_node at h
  by_cases hl : (lookupStr acc n.name).isSome
  · rw [if_pos hl] at h; exact absurd h (by simp)
  · rw [if_neg hl] at h
    have hacc' : acc ++ [(n.name, n)] = acc' := Except.ok.inj h
    rw [← hacc']
    rw [List.map_append, List.nodup_append]
    refine ⟨hacc, by simp, ?_⟩
    intro a ha hb
    have hb' : a = n.name := by simpa using hb
    subst hb'
    rcases List.mem_map.mp ha with ⟨p, hp, hpk⟩
    exact hl (hpk ▸ lookupStr_isSome_of_mem hp)

theorem foldlM_builder_nodup :
    ∀ (ns : List Node) (acc : List (String × Node))
      (nodes : List (String × Node)),
      (acc.map Prod.fst).Nodup →
      List.foldlM builder_node acc ns = Except.ok nodes →
      (nodes.map Prod.fst).Nodup := by
  intro ns
  induction ns with
  | nil =>
      intro acc nodes hacc h
      have : acc = nodes := by
        simpa [List.foldlM, pure, Except.pure] using h
      exact this ▸ hacc
  | cons n rest ih =>
      intro acc nodes hacc h
      rw [List.foldlM_cons] at h
      cases hb : builder_node acc n with
      | error e =>
          rw [hb] at h
          exact absurd h (by simp [Bind.bind, Except.bind])
      | ok acc' =>
          rw [hb] at h
          simp only [Bind.bind, Except.bind] at h
          exact ih acc' nodes (builder_node_ok_nodup hb hacc) h

/-- C7 (confirmed).  Configuration errors are fatal at build time:
registering a node under an already-registered name raises
`DuplicateNodeError`; `build()` fails when the gathered topics contain
neither the agent-input (entry) nor the agent-output (terminal) topic;
and a successfully built workflow has pairwise distinct node names and
contains an entry or terminal topic. -/
theorem claim_C7_confirmed :
    (∀ (nodes : List (String × Node)) (n : Node),
       (lookupStr nodes n.name).isSome →
       builder_node nodes n = Except.error "DuplicateNodeError")
    ∧ (∀ nodes : List (String × Node),
       lookupStr (nodes.foldl gatherNodeTopics ([], [])).1 AGENT_INPUT_TOPIC
           = none →
       lookupStr (nodes.foldl gatherNodeTopics ([], [])).1 AGENT_OUTPUT_TOPIC
           = none →
       builder_build nodes
         = Except.error "Agent input output topic not found in workflow topics.")
    ∧ (∀ (ns : List Node) (w : Workflow), buildWorkflow ns = Except.ok w →
       (w.nodes.map Prod.fst).Nodup
       ∧ ((lookupStr w.topics AGENT_INPUT_TOPIC).isSome
          ∨ (lookupStr w.topics AGENT_OUTPUT_TOPIC).isSome)) := by
  refine ⟨?_, ?_, ?_⟩
  · intro nodes n h
    unfold builder_node
    rw [if_pos h]
  · intro nodes h1 h2
    simp only [builder_build]
    rw [if_pos ⟨by simp [h1], by simp [h2]⟩]
  · intro ns w h
    unfold buildWorkflow at h
    simp only [Bind.bind, Except.bind] at h
    cases hf : List.foldlM builder_node [] ns with
    | error e => rw [hf] at h; exact absurd h (by simp)
    | ok nodes =>
        rw [hf] at h
        have hnodup := foldlM_builder_nodup ns [] nodes (by simp) hf
        simp only [builder_build] at h
        by_cases hcc :
            (lookupStr (nodes.foldl gatherNodeTopics ([], [])).1
              AGENT_INPUT_TOPIC).isNone = true
            ∧ (lookupStr (nodes.foldl gatherNodeTopics ([], [])).1
              AGENT_OUTPUT_TOPIC).isNone = true
        · rw [if_pos hcc] at h
          exact absurd h (by simp)
        · rw [if_neg hcc] at h
          have hw := Except.ok.inj h
          subst hw
          constructor
          · exact hnodup
          · rcases Decidable.not_and_iff_or_not.mp hcc with h' | h'
            · left
              cases hopt : lookupStr (nodes.foldl gatherNodeTopics ([], [])).1
                  AGENT_INPUT_TOPIC with
              | none => exact absurd (by simp [hopt]) h'
              | some t => simp
            · right
              cases hopt : lookupStr (nodes.foldl gatherNodeTopics ([], [])).1
                  AGENT_OUTPUT_TOPIC with
              | none => exact absurd (by simp [hopt]) h'
              | some t => simp

/-- C7 witness: duplicate registration of nodeEx fails, and the built
one-node workflow has distinct node names and an entry topic. -/
theorem claim_C7_witness :
    builder_node [("n1", nodeEx)] nodeEx = Except.error "DuplicateNodeError"
    ∧ ((wEx.nodes.map Prod.fst).Nodup
       ∧ ((lookupStr wEx.topics AGENT_INPUT_TOPIC).isSome
          ∨ (lookupStr wEx.topics AGENT_OUTPUT_TOPIC).isSome)) :=
  ⟨claim_C7_confirmed.1 [("n1", nodeEx)] nodeEx (by decide),
   claim_C7_confirmed.2.2 [nodeEx] wEx (by rfl)⟩

/-! ### Claim C10: empty-input dequeues are no-ops -/

theorem can_consume_unconsumed_ne {t : Topic} {c : String}
    (h : t.can_consume c = true) : t.unconsumed c ≠ [] := by
  unfold Topic.can_consume at h
  unfold Topic.unconsumed
  rw [List.any_eq_true] at h
  rcases h with ⟨e, he, hpe⟩
  intro hc
  rw [List.filter_eq_nil_iff] at hc
  exact hc e he hpe

theorem consumeFromTopics_nil_frame (n : Node) :
    ∀ (names : List String) (tps : List (String × Topic)),
      (consumeFromTopics n names tps).1 = [] →
      (consumeFromTopics n names tps).2 = tps := by
  intro names
  induction names with
  | nil => intro tps _; rfl
  | cons tname rest ih =>
      intro tps h
      rw [consumeFromTopics] at h ⊢
      cases hl : lookupStr tps tname with
      | none =>
          rw [hl] at h
          dsimp only [] at h ⊢
          exact ih tps h
      | some t =>
          rw [hl] at h
          dsimp only [] at h ⊢
          by_cases hc : t.can_consume n.name = true
          · rw [if_pos hc] at h
            exfalso
            have h1 := (List.append_eq_nil.mp h).1
            unfold mkConsEvents at h1
            rw [List.map_eq_nil] at h1
            have hne := can_consume_unconsumed_ne hc
            unfold Topic.consume at h1
            cases hu : t.unconsumed n.name with
            | nil => exact hne hu
            | cons a as =>
                rw [hu] at h1
                simp at h1
          · rw [if_neg hc] at h ⊢
            exact ih tps h

theorem get_node_input_nil_frame (n : Node) (tps : List (String × Topic))
    (h : (get_node_input n tps).1 = []) : (get_node_input n tps).2 = tps :=
  consumeFromTopics_nil_frame n n.subscribed_topic_names tps h

/-- C10 (confirmed).  When a dequeued node has no consumable events on
any subscribed topic (`get_node_input` returns the empty list), the loop
iteration is a pure no-op apart from popping the queue: the node is not
invoked (the outcome does not depend on any node result), nothing is
published, the topics are untouched, and no event is recorded. -/
theorem claim_C10_confirmed (w : Workflow) (ctx : ExecutionContext)
    (nname : String) (rest : List String) (st : WState) (n : Node)
    (hn : lookupStr w.nodes nname = some n)
    (h : (get_node_input n st.topics).1 = []) :
    ∀ result : MsgSource, execStep w ctx result nname rest st
      = Except.ok { topics := st.topics, queue := rest, store := st.store } := by
  intro result
  unfold execStep
  simp only [hn]
  rw [h]
  dsimp only []
  rw [get_node_input_nil_frame n st.topics h]

/-- C10 witness: the one-node workflow with all topics empty. -/
theorem claim_C10_witness :
    (get_node_input nodeEx st0.topics).1 = []
    ∧ execStep wEx ctx0 (MsgSource.drained []) "n1" [] st0
        = Except.ok { topics := st0.topics, queue := [], store := st0.store } :=
  ⟨by decide,
   claim_C10_confirmed wEx ctx0 "n1" [] st0 nodeEx (by decide) (by decide)
     (MsgSource.drained [])⟩

/-! ### Topic publish lemmas and preservation of name and kind -/

theorem publish_data_none_topic {t : Topic} {ctx : ExecutionContext}
    {pn pt : String} {d : MsgSource} {ids : List String}
    (h : (t.publish_data ctx pn pt d ids).1 = none) :
    (t.publish_data ctx pn pt d ids).2 = t := by
  unfold Topic.publish_data at h ⊢
  by_cases hc : t.kind = TopicKind.entry ∧ t.events ≠ []
  · rw [if_pos hc]
  · rw [if_neg hc] at h
    simp at h

theorem publish_data_some_spec {t : Topic} {ctx : ExecutionContext}
    {pn pt : String} {d : MsgSource} {ids : List String} {ev : PubEvent}
    (h : (t.publish_data ctx pn pt d ids).1 = some ev) :
    ev.data = d ∧ ev.topic_name = t.name ∧ ev.offset = t.nextOffset
    ∧ ev.is_output = decide (t.kind = TopicKind.output)
    ∧ ev.consumed_event_ids = ids ∧ ev.ctx = ctx
    ∧ (t.publish_data ctx pn pt d ids).2
        = { t with events := t.events ++ [ev] } := by
  unfold Topic.publish_data at h ⊢
  by_cases hc : t.kind = TopicKind.entry ∧ t.events ≠ []
  · rw [if_pos hc] at h
    simp at h
  · rw [if_neg hc] at h ⊢
    have hev := Option.some.inj h
    subst hev
    exact ⟨rfl, rfl, rfl, rfl, rfl, rfl, rfl⟩

/-- Name and kind of a topic, preserved by everything the engine does to
topic state within one loop iteration. -/
def topicNK (t1 t2 : Topic) : Prop := t2.name = t1.name ∧ t2.kind = t1.kind

/-- Backward simulation between topic maps: every binding of the newer
map comes from a binding of the older map related by `P`. -/
def topicsBack (P : Topic → Topic → Prop)
    (tpsA tpsB : List (String × Topic)) : Prop :=
  (∀ k t', lookupStr tpsB k = some t' →
     ∃ t, lookupStr tpsA k = some t ∧ P t t')
  ∧ (∀ k, lookupStr tpsB k = none → lookupStr tpsA k = none)

theorem topicsBack_refl (tps : List (String × Topic)) :
    topicsBack topicNK tps tps :=
  ⟨fun k t' h => ⟨t', h, rfl, rfl⟩, fun _ h => h⟩

theorem topicsBack_trans {tpsA tpsB tpsC : List (String × Topic)}
    (h1 : topicsBack topicNK tpsA tpsB) (h2 : topicsBack topicNK tpsB tpsC) :
    topicsBack topicNK tpsA tpsC := by
  constructor
  · intro k t' h
    obtain ⟨tb, hb, hbk⟩ := h2.1 k t' h
    obtain ⟨ta, ha, hak⟩ := h1.1 k tb hb
    exact ⟨ta, ha, hbk.1.trans hak.1, hbk.2.trans hak.2⟩
  · intro k h
    exact h1.2 k (h2.2 k h)

theorem topicsBack_updateStr {tps : List (String × Topic)} {k : String}
    {t t' : Topic} (hl : lookupStr tps k = some t) (hP : topicNK t t') :
    topicsBack topicNK tps (updateStr tps k t') := by
  constructor
  · intro k' t'' h
    by_cases hk : k' = k
    · subst hk
      rw [lookupStr_updateStr_self] at h
      exact ⟨t, hl, (Option.some.inj h) ▸ hP⟩
    · rw [lookupStr_updateStr_ne _ _ _ _ hk] at h
      exact ⟨t'', h, rfl, rfl⟩
  · intro k' h
    by_cases hk : k' = k
    · subst hk
      rw [lookupStr_updateStr_self] at h
      exact absurd h (by simp)
    · rw [lookupStr_updateStr_ne _ _ _ _ hk] at h
      exact h

theorem consume_topicNK (t : Topic) (c : String) :
    topicNK t (t.consume c).2 := by
  unfold Topic.consume
  cases t.unconsumed c <;> exact ⟨rfl, rfl⟩

theorem publish_data_topicNK (t : Topic) (ctx : ExecutionContext)
    (pn pt : String) (d : MsgSource) (ids : List String) :
    topicNK t (t.publish_data ctx pn pt d ids).2 := by
  unfold Topic.publish_data
  by_cases hc : t.kind = TopicKind.entry ∧ t.events ≠ []
  · rw [if_pos hc]; exact ⟨rfl, rfl⟩
  · rw [if_neg hc]; exact ⟨rfl, rfl⟩

theorem consumeFromTopics_back (n : Node) :
    ∀ (names : List String) (tps : List (String × Topic)),
      topicsBack topicNK tps (consumeFromTopics n names tps).2 := by
  intro names
  induction names with
  | nil => intro tps; exact topicsBack_refl tps
  | cons tname rest ih =>
      intro tps
      rw [consumeFromTopics]
      cases hl : lookupStr tps tname with
      | none => exact ih tps
      | some t =>
          dsimp only []
          by_cases hc : t.can_consume n.name = true
          · rw [if_pos hc]
            dsimp only []
            exact topicsBack_trans
              (topicsBack_updateStr hl (consume_topicNK t n.name))
              (ih (updateStr tps tname (t.consume n.name).2))
          · rw [if_neg hc]
            exact ih tps

theorem publishStep_back (w : Workflow) (n : Node) (ctx : ExecutionContext)
    (result : MsgSource) (ids : List String) (acc : PubFold) (target : Topic) :
    topicsBack topicNK acc.topics
      (publishStep w n ctx result ids acc target).topics := by
  unfold publishStep
  cases hl : lookupStr acc.topics target.name with
  | none => exact topicsBack_refl _
  | some t =>
      dsimp only []
      cases hp : (t.publish_data ctx n.name n.type result ids).1 with
      | none =>
          exact topicsBack_updateStr hl (publish_data_topicNK t ctx n.name n.type result ids)
      | some ev =>
          exact topicsBack_updateStr hl (publish_data_topicNK t ctx n.name n.type result ids)

theorem publishFold_back (w : Workflow) (n : Node) (ctx : ExecutionContext)
    (result : MsgSource) (ids : List String) :
    ∀ (targets : List Topic) (acc : PubFold),
      topicsBack topicNK acc.topics
        (targets.foldl (publishStep w n ctx result ids) acc).topics := by
  intro targets
  induction targets with
  | nil => intro acc; exact topicsBack_refl _
  | cons target ts ih =>
      intro acc
      rw [List.foldl_cons]
      exact topicsBack_trans (publishStep_back w n ctx result ids acc target)
        (ih (publishStep w n ctx result ids acc target))

theorem publishFold_pubs_data {w : Workflow} {n : Node} {ctx : ExecutionContext}
    {result : MsgSource} {ids : List String} :
    ∀ (targets : List Topic) (acc : PubFold),
      (∀ p ∈ acc.pubs, p.data = result) →
      ∀ p ∈ (targets.foldl (publishStep w n ctx result ids) acc).pubs,
        p.data = result := by
  intro targets
  induction targets with
  | nil => intro acc h; exact h
  | cons target ts ih =>
      intro acc h
      rw [List.foldl_cons]
      apply ih
      unfold publishStep
      cases hl : lookupStr acc.topics target.name with
      | none => exact h
      | some t =>
          dsimp only []
          cases hp : (t.publish_data ctx n.name n.type result ids).1 with
          | none => exact h
          | some ev =>
              intro p hp'
              rcases List.mem_append.mp hp' with h' | h'
              · exact h p h'
              · have : p = ev := by simpa using h'
                subst this
                exact (publish_data_some_spec hp).1

theorem publishFold_queue_output {w : Workflow} {n : Node}
    {ctx : ExecutionContext} {result : MsgSource} {ids : List String} :
    ∀ (targets : List Topic) (acc : PubFold),
      (∀ target ∈ targets, ∀ t,
        lookupStr acc.topics target.name = some t →
        t.kind = TopicKind.output) →
      (targets.foldl (publishStep w n ctx result ids) acc).queue
        = acc.queue := by
  intro targets
  induction targets with
  | nil => intro acc _; rfl
  | cons target ts ih =>
      intro acc hall
      rw [List.foldl_cons]
      have hstepq : (publishStep w n ctx result ids acc target).queue
          = acc.queue := by
        unfold publishStep
        cases hl : lookupStr acc.topics target.name with
        | none => rfl
        | some t =>
            dsimp only []
            cases hp : (t.publish_data ctx n.name n.type result ids).1 with
            | none => rfl
            | some ev =>
                have hkind := hall target (List.mem_cons_self _ _) t hl
                have hout : ev.is_output = true := by
                  rw [(publish_data_some_spec hp).2.2.2.1, hkind]
                  simp
                dsimp only []
                unfold on_event
                rw [if_pos hout]
      rw [← hstepq]
      apply ih
      intro target' ht' t' hl'
      obtain ⟨t0, hl0, hnk⟩ :=
        (publishStep_back w n ctx result ids acc target).1 target'.name t' hl'
      rw [hnk.2]
      exact hall target' (List.mem_cons_of_mem _ ht') t0 hl0

/-! ### Claim C5: streaming versus interior nodes in a_execute -/

theorem a_execStep_eq {w : Workflow} {nname : String} {n : Node}
    (hn : lookupStr w.nodes nname = some n) (ctx : ExecutionContext)
    (chunks : List (List Message)) (rest : List String) (st : WState) :
    a_execStep w ctx chunks nname rest st
      = execStep w ctx
          (if n.is_stream_command then MsgSource.stream chunks
           else MsgSource.drained chunks.flatten) nname rest st := by
  unfold a_execStep
  simp only [hn]

theorem execStep_pub_data {w : Workflow} {ctx : ExecutionContext}
    {result : MsgSource} {nname : String} {rest : List String}
    {st st' : WState} {n : Node} (hn : lookupStr w.nodes nname = some n)
    (h : execStep w ctx result nname rest st = Except.ok st') :
    ∀ e, SEvent.pub e ∈ st'.store.drop st.store.length → e.data = result := by
  intro e he
  unfold execStep at h
  rw [hn] at h
  dsimp only [] at h
  cases hg : (get_node_input n st.topics).1 with
  | nil =>
      rw [hg] at h
      dsimp only [] at h
      have := Except.ok.inj h
      rw [← this] at he
      dsimp only [] at he
      rw [List.drop_length] at he
      simp at he
  | cons c cs =>
      rw [hg] at h
      dsimp only [] at h
      have := Except.ok.inj h
      rw [← this] at he
      dsimp only [] at he
      rw [List.drop_left] at he
      unfold _publish_events at he
      dsimp only [] at he
      rcases List.mem_append.mp he with h' | h'
      · rcases List.mem_map.mp h' with ⟨cev, _, hcev⟩
        exact absurd hcev (by simp)
      · rcases List.mem_map.mp h' with ⟨p, hp, hpe⟩
        have hpe' : p = e := by simpa using hpe
        subst hpe'
        exact publishFold_pubs_data n.publish_to _ (by simp) p hp

theorem execStep_queue_output {w : Workflow} {ctx : ExecutionContext}
    {result : MsgSource} {nname : String} {rest : List String}
    {st st' : WState} {n : Node} (hn : lookupStr w.nodes nname = some n)
    (hall : ∀ target ∈ n.publish_to, ∀ t,
      lookupStr st.topics target.name = some t → t.kind = TopicKind.output)
    (h : execStep w ctx result nname rest st = Except.ok st') :
    st'.queue = rest := by
  unfold execStep at h
  rw [hn] at h
  dsimp only [] at h
  cases hg : (get_node_input n st.topics).1 with
  | nil =>
      rw [hg] at h
      dsimp only [] at h
      have := Except.ok.inj h
      rw [← this]
  | cons c cs =>
      rw [hg] at h
      dsimp only [] at h
      have hst := Except.ok.inj h
      rw [← hst]
      unfold _publish_events
      dsimp only []
      apply publishFold_queue_output
      intro target ht t hl
      obtain ⟨t0, hl0, hnk⟩ :=
        (consumeFromTopics_back n n.subscribed_topic_names st.topics).1
          target.name t hl
      rw [hnk.2]
      exact hall target ht t0 hl0

/-- C5 (confirmed, spec-modelled caller handoff).  In the asynchronous
loop, a node whose command is an `LLMStreamResponseCommand` has its
lazily produced sequence passed through entirely unconsumed — every event
it publishes carries the live stream, not a drained aggregate — and when
all its targets are output topics (the terminal streaming case, through
which the caller receives the sequence) no further queue processing
results from the publish; an interior (non-streaming) node has its
sequence drained fully and the aggregated chunks published to its target
topics. -/
theorem claim_C5_confirmed (w : Workflow) (ctx : ExecutionContext)
    (chunks : List (List Message)) (nname : String) (rest : List String)
    (st : WState) (n : Node) (hn : lookupStr w.nodes nname = some n) :
    (n.is_stream_command = true →
      a_execStep w ctx chunks nname rest st
        = execStep w ctx (MsgSource.stream chunks) nname rest st
      ∧ ∀ st', a_execStep w ctx chunks nname rest st = Except.ok st' →
          (∀ e, SEvent.pub e ∈ st'.store.drop st.store.length →
            e.data = MsgSource.stream chunks)
          ∧ ((∀ target ∈ n.publish_to, ∀ t,
              lookupStr st.topics target.name = some t →
              t.kind = TopicKind.output) → st'.queue = rest))
    ∧ (n.is_stream_command = false →
      a_execStep w ctx chunks nname rest st
        = execStep w ctx (MsgSource.drained chunks.flatten) nname rest st
      ∧ ∀ st', a_execStep w ctx chunks nname rest st = Except.ok st' →
          ∀ e, SEvent.pub e ∈ st'.store.drop st.store.length →
            e.data = MsgSource.drained chunks.flatten) := by
  constructor
  · intro hs
    have heq := a_execStep_eq hn ctx chunks rest st
    rw [if_pos hs] at heq
    refine ⟨heq, ?_⟩
    intro st' hok
    rw [heq] at hok
    exact ⟨execStep_pub_data hn hok, fun hall => execStep_queue_output hn hall hok⟩
  · intro hs
    have heq := a_execStep_eq hn ctx chunks rest st
    rw [if_neg (by simp [hs])] at heq
    refine ⟨heq, ?_⟩
    intro st' hok
    rw [heq] at hok
    exact execStep_pub_data hn hok

/-- C5 witness: the streaming one-node workflow; the loop body passes the
unconsumed chunk sequence through. -/
theorem claim_C5_witness :
    streamNodeEx.is_stream_command = true
    ∧ a_execStep wExS ctx0 [[outMsg]] "n2" [] stS
        = execStep wExS ctx0 (MsgSource.stream [[outMsg]]) "n2" [] stS :=
  ⟨rfl,
   ((claim_C5_confirmed wExS ctx0 [[outMsg]] "n2" [] stS streamNodeEx
      (by rfl)).1 rfl).1⟩

/-! ### Claim C4: fresh-run seeding of the entry topic -/

theorem lookupStr_name_eq {w : Workflow} (hwf : ∀ p ∈ w.topics, p.2.name = p.1)
    {k : String} {t : Topic} (h : lookupStr w.topics k = some t) :
    t.name = k := by
  unfold lookupStr at h
  rcases Option.map_eq_some'.mp h with ⟨p, hp, hpt⟩
  have hmem := List.mem_of_find?_eq_some hp
  have hkey := List.find?_some hp
  rw [← hpt, hwf p hmem]
  simpa using hkey

theorem dedupeARAux_of_nodup :
    ∀ (l : List ARData) (seen : List String),
      (l.map ARData.event_id).Nodup →
      (∀ a ∈ l, a.event_id ∉ seen) →
      dedupeARAux seen l = l := by
  intro l
  induction l with
  | nil => intro seen _ _; rfl
  | cons a rest ih =>
      intro seen hnodup hseen
      have hnodup2 : a.event_id ∉ rest.map ARData.event_id
          ∧ (rest.map ARData.event_id).Nodup := by
        rw [List.map_cons, List.nodup_cons] at hnodup
        exact hnodup
      rw [dedupeARAux, if_neg (hseen a (List.mem_cons_self _ _))]
      congr 1
      apply ih
      · exact hnodup2.2
      · intro b hb hc
        rcases List.mem_cons.mp hc with h' | h'
        · exact hnodup2.1 (h' ▸ List.mem_map_of_mem _ hb)
        · exact hseen b (List.mem_cons_of_mem _ hb) h'

theorem filter_eq_singleton_of_nodup :
    ∀ (l : List ARData), (l.map ARData.event_id).Nodup →
      ∀ a ∈ l, l.filter (fun b => b.event_id == a.event_id) = [a] := by
  intro l
  induction l with
  | nil => intro _ a ha; simp at ha
  | cons b rest ih =>
      intro hnodup a ha
      have hnodup' : b.event_id ∉ rest.map ARData.event_id
          ∧ (rest.map ARData.event_id).Nodup := by
        rw [List.map_cons, List.nodup_cons] at hnodup
        exact hnodup
      rcases List.mem_cons.mp ha with h' | h'
      · subst h'
        rw [List.filter_cons_of_pos (by simp)]
        have : rest.filter (fun c => c.event_id == a.event_id) = [] := by
          rw [List.filter_eq_nil_iff]
          intro c hc hcc
          apply hnodup'.1
          have : c.event_id = a.event_id := by simpa using hcc
          exact this ▸ List.mem_map_of_mem _ hc
        rw [this]
      · have hne : (b.event_id == a.event_id) = false := by
          rw [beq_eq_false_iff_ne]
          intro hc
          exact hnodup'.1 (hc ▸ List.mem_map_of_mem _ h')
        rw [List.filter_cons_of_neg (by simp [hne])]
        exact ih hnodup'.2 a h'

theorem dictValuesById_of_nodup {l : List ARData}
    (h : (l.map ARData.event_id).Nodup) : dictValuesById l = l := by
  unfold dictValuesById
  rw [dedupeARAux_of_nodup l [] h (by simp)]
  have : ∀ a ∈ l, (lastWithId l a.event_id).getD a = a := by
    intro a ha
    unfold lastWithId
    rw [filter_eq_singleton_of_nodup l h a ha]
    rfl
  rw [List.map_congr_left this]
  simp

/-- C4 (confirmed).  On a request with no stored publish or consume
events, `initial_workflow` records exactly one new event: a publish to
the agent-input (entry) topic at offset 0, whose data is the input and
output messages of the conversation's assistant-respond events, stably
sorted by message timestamp, with the new input messages appended at the
end. -/
theorem claim_C4_confirmed (w : Workflow) (ctx : ExecutionContext)
    (input : List Message) (store : List SEvent) (st : WState)
    (hwf : ∀ p ∈ w.topics, p.2.name = p.1)
    (hnoev : store.filter (isRequestTopicEvent ctx.assistant_request_id) = [])
    (hids : ((conversationARs store ctx.conversation_id).map
      ARData.event_id).Nodup)
    (hok : initial_workflow w ctx input store = Except.ok st) :
    ∃ ev : PubEvent,
      st.store = store ++ [SEvent.pub ev]
      ∧ ev.topic_name = AGENT_INPUT_TOPIC
      ∧ ev.offset = 0
      ∧ ev.data = MsgSource.drained
          (sortByTimestamp (allConversationMessages store ctx.conversation_id)
            ++ input)
      ∧ (sortByTimestamp (allConversationMessages store ctx.conversation_id)).Perm
          (allConversationMessages store ctx.conversation_id)
      ∧ (sortByTimestamp
          (allConversationMessages store ctx.conversation_id)).Sorted
          (fun a b => a.timestamp ≤ b.timestamp) := by
  unfold initial_workflow at hok
  simp only [hnoev] at hok
  cases hl : lookupStr (resetTopics w.topics) AGENT_INPUT_TOPIC with
  | none =>
      rw [hl] at hok
      exact absurd hok (by simp)
  | some t =>
      rw [hl] at hok
      dsimp only [] at hok
      rw [lookupStr_resetTopics] at hl
      rcases Option.map_eq_some'.mp hl with ⟨t0, hl0, ht0⟩
      have hevents : t.events = [] := by rw [← ht0]; rfl
      have hname : t.name = AGENT_INPUT_TOPIC := by
        rw [← ht0]
        show t0.name = AGENT_INPUT_TOPIC
        exact lookupStr_name_eq hwf hl0
      have hoffset : t.nextOffset = 0 := by
        unfold Topic.nextOffset
        rw [hevents]
        rfl
      have hcond : ¬(t.kind = TopicKind.entry ∧ t.events ≠ []) := by
        intro hc
        exact hc.2 hevents
      have hpub1 : (t.publish_data ctx w.name w.type
          (MsgSource.drained (freshRunSeed store ctx.conversation_id input))
          []).1 = some
          { event_id := "", ctx := ctx, topic_name := t.name
            offset := t.nextOffset, publisher_name := w.name
            publisher_type := w.type, consumed_event_ids := []
            is_output := t.kind = TopicKind.output
            data := MsgSource.drained
              (freshRunSeed store ctx.conversation_id input) } := by
        unfold Topic.publish_data
        rw [if_neg hcond]
      rw [hpub1] at hok
      dsimp only [] at hok
      have hst := Except.ok.inj hok
      refine Exists.intro
        { event_id := "", ctx := ctx, topic_name := t.name
          offset := t.nextOffset, publisher_name := w.name
          publisher_type := w.type, consumed_event_ids := []
          is_output := t.kind = TopicKind.output
          data := MsgSource.drained
            (freshRunSeed store ctx.conversation_id input) }
        ⟨?_, ?_, ?_, ?_, ?_, ?_⟩
      · rw [← hst]
      · exact hname
      · exact hoffset
      · show MsgSource.drained (freshRunSeed store ctx.conversation_id input)
          = _
        unfold freshRunSeed allConversationMessages
        rw [dictValuesById_of_nodup hids]
      · exact List.perm_insertionSort _ _
      · haveI : IsTotal Message (fun a b => a.timestamp ≤ b.timestamp) :=
          ⟨fun a b => Nat.le_total a.timestamp b.timestamp⟩
        haveI : IsTrans Message (fun a b => a.timestamp ≤ b.timestamp) :=
          ⟨fun _ _ _ h1 h2 => Nat.le_trans h1 h2⟩
        exact List.sorted_insertionSort _ _

/-- C4 witness: fresh run of the one-node workflow from the empty store. -/
theorem claim_C4_witness :
    initial_workflow wEx ctx0 [msg1] [] = Except.ok stInit
    ∧ ∃ ev : PubEvent, stInit.store = [] ++ [SEvent.pub ev]
        ∧ ev.topic_name = AGENT_INPUT_TOPIC ∧ ev.offset = 0 := by
  refine ⟨by rfl, ?_⟩
  obtain ⟨ev, h1, h2, h3, _⟩ := claim_C4_confirmed wEx ctx0 [msg1] [] stInit
    (by decide) (by rfl) (by decide) (by rfl)
  exact ⟨ev, h1, h2, h3⟩

/-! ### Claim C6: store invariants — utility lemmas -/

theorem storePubsFor_append :
    ∀ (a : List SEvent) (b : List SEvent) (k : String),
    storePubsFor (a ++ b) k = storePubsFor a k ++ storePubsFor b k := by
  intro a
  induction a with
  | nil => intro b k; rfl
  | cons x rest ih =>
      intro b k
      cases x with
      | pub e =>
          by_cases he : (e.topic_name == k) = true
          · simp [storePubsFor, he, ih]
          · simp [storePubsFor, he, ih]
      | cons e => simp [storePubsFor, ih]
      | assistantRespond ar => simp [storePubsFor, ih]

theorem storePubsFor_cons_events (consumed : List ConsEvent) (k : String) :
    storePubsFor (consumed.map SEvent.cons) k = [] := by
  induction consumed with
  | nil => rfl
  | cons c cs ih =>
      rw [List.map_cons]
      simpa [storePubsFor] using ih

theorem storePubsFor_pub_map (pubs : List PubEvent) (k : String) :
    storePubsFor (pubs.map SEvent.pub) k = pubsFor pubs k := by
  induction pubs with
  | nil => rfl
  | cons p ps ih =>
      rw [List.map_cons]
      by_cases hp : (p.topic_name == k) = true
      · simp [storePubsFor, pubsFor, hp] at ih ⊢
        exact ih
      · simp [storePubsFor, pubsFor, hp] at ih ⊢
        exact ih

theorem mem_storePubsFor :
    ∀ {store : List SEvent} {k : String} {p : PubEvent},
    p ∈ storePubsFor store k → SEvent.pub p ∈ store ∧ p.topic_name = k := by
  intro store
  induction store with
  | nil => intro k p h; simp [storePubsFor] at h
  | cons x rest ih =>
      intro k p h
      cases x with
      | pub e =>
          by_cases he : (e.topic_name == k) = true
          · simp only [storePubsFor, if_pos he] at h
            rcases List.mem_cons.mp h with h' | h'
            · subst h'
              exact ⟨List.mem_cons_self _ _, by simpa using he⟩
            · obtain ⟨h1, h2⟩ := ih h'
              exact ⟨List.mem_cons_of_mem _ h1, h2⟩
          · simp only [storePubsFor, if_neg he] at h
            obtain ⟨h1, h2⟩ := ih h
            exact ⟨List.mem_cons_of_mem _ h1, h2⟩
      | cons e =>
          simp only [storePubsFor] at h
          obtain ⟨h1, h2⟩ := ih h
          exact ⟨List.mem_cons_of_mem _ h1, h2⟩
      | assistantRespond ar =>
          simp only [storePubsFor] at h
          obtain ⟨h1, h2⟩ := ih h
          exact ⟨List.mem_cons_of_mem _ h1, h2⟩

theorem foldl_offset_le (l : List PubEvent) :
    ∀ (a : Nat), a ≤ l.foldl (fun a e => max a (e.offset + 1)) a := by
  induction l with
  | nil => intro a; exact Nat.le_refl a
  | cons x xs ih =>
      intro a
      rw [List.foldl_cons]
      exact Nat.le_trans (Nat.le_max_left a (x.offset + 1)) (ih _)

theorem foldl_offset_gt {l : List PubEvent} {e : PubEvent} (he : e ∈ l) :
    ∀ (a : Nat), e.offset < l.foldl (fun a e => max a (e.offset + 1)) a := by
  induction l with
  | nil => exact absurd he (by simp)
  | cons x xs ih =>
      intro a
      rw [List.foldl_cons]
      rcases List.mem_cons.mp he with h' | h'
      · subst h'
        calc e.offset < e.offset + 1 := Nat.lt_succ_self _
          _ ≤ max a (e.offset + 1) := Nat.le_max_right _ _
          _ ≤ _ := foldl_offset_le xs _
      · exact ih h' _

theorem nextOffset_gt {t : Topic} {e : PubEvent} (he : e ∈ t.events) :
    e.offset < t.nextOffset :=
  foldl_offset_gt he 0

theorem pairwise_offsets_append {l : List PubEvent} {x : PubEvent}
    (hl : (l.map PubEvent.offset).Pairwise (· < ·))
    (hx : ∀ e ∈ l, e.offset < x.offset) :
    (((l ++ [x]).map PubEvent.offset).Pairwise (· < ·)) := by
  rw [List.map_append, List.pairwise_append]
  refine ⟨hl, by simp, ?_⟩
  intro a ha b hb
  rcases List.mem_map.mp ha with ⟨ea, hea, haeq⟩
  have hbx : b = x.offset := by simpa using hb
  rw [← haeq, hbx]
  exact hx ea hea

/-! ### Events-preserving backward simulation for the consume phase -/

theorem topicsBack_evs_refl (tps : List (String × Topic)) :
    topicsBack topicEvs tps tps :=
  ⟨fun k t' h => ⟨t', h, rfl, rfl⟩, fun _ h => h⟩

theorem topicsBack_evs_trans {tpsA tpsB tpsC : List (String × Topic)}
    (h1 : topicsBack topicEvs tpsA tpsB)
    (h2 : topicsBack topicEvs tpsB tpsC) :
    topicsBack topicEvs tpsA tpsC := by
  constructor
  · intro k t' h
    obtain ⟨tb, hb, hbk⟩ := h2.1 k t' h
    obtain ⟨ta, ha, hak⟩ := h1.1 k tb hb
    exact ⟨ta, ha, hbk.1.trans hak.1, hbk.2.trans hak.2⟩
  · intro k h
    exact h1.2 k (h2.2 k h)

theorem topicsBack_evs_updateStr {tps : List (String × Topic)} {k : String}
    {t t' : Topic} (hl : lookupStr tps k = some t) (hP : topicEvs t t') :
    topicsBack topicEvs tps (updateStr tps k t') := by
  constructor
  · intro k' t'' h
    by_cases hk : k' = k
    · subst hk
      rw [lookupStr_updateStr_self] at h
      exact ⟨t, hl, (Option.some.inj h) ▸ hP⟩
    · rw [lookupStr_updateStr_ne _ _ _ _ hk] at h
      exact ⟨t'', h, rfl, rfl⟩
  · intro k' h
    by_cases hk : k' = k
    · subst hk
      rw [lookupStr_updateStr_self] at h
      exact absurd h (by simp)
    · rw [lookupStr_updateStr_ne _ _ _ _ hk] at h
      exact h

theorem consume_topicEvs (t : Topic) (c : String) :
    topicEvs t (t.consume c).2 := by
  unfold Topic.consume
  cases t.unconsumed c <;> exact ⟨rfl, rfl⟩

theorem consumeFromTopics_back_evs (n : Node) :
    ∀ (names : List String) (tps : List (String × Topic)),
      topicsBack topicEvs tps (consumeFromTopics n names tps).2 := by
  intro names
  induction names with
  | nil => intro tps; exact topicsBack_evs_refl tps
  | cons tname rest ih =>
      intro tps
      rw [consumeFromTopics]
      cases hl : lookupStr tps tname with
      | none => exact ih tps
      | some t =>
          dsimp only []
          by_cases hc : t.can_consume n.name = true
          · rw [if_pos hc]
            dsimp only []
            exact topicsBack_evs_trans
              (topicsBack_evs_updateStr hl (consume_topicEvs t n.name))
              (ih (updateStr tps tname (t.consume n.name).2))
          · rw [if_neg hc]
            exact ih tps

theorem TopicsLinked_transfer {tpsA tpsB : List (String × Topic)}
    {store : List SEvent} (hlink : TopicsLinked tpsA store)
    (hback : topicsBack topicEvs tpsA tpsB) : TopicsLinked tpsB store := by
  constructor
  · intro k t' h
    obtain ⟨t, hl, hev⟩ := hback.1 k t' h
    obtain ⟨hname, hpubs, hpair⟩ := hlink.1 k t hl
    exact ⟨hev.1.trans hname, hpubs.trans hev.2.symm, hev.2 ▸ hpair⟩
  · intro k h
    exact hlink.2 k (hback.2 k h)

/-- The consume events gathered by `get_node_input` all refer to events
present in some topic of the pre-state. -/
theorem consumeFromTopics_consumed_spec (n : Node) :
    ∀ (names : List String) (tps : List (String × Topic)),
      ∀ c ∈ (consumeFromTopics n names tps).1,
        ∃ (k : String) (t : Topic) (pe : PubEvent),
          lookupStr tps k = some t ∧ pe ∈ t.events
          ∧ c.topic_name = pe.topic_name ∧ c.offset = pe.offset := by
  intro names
  induction names with
  | nil => intro tps c hc; simp [consumeFromTopics] at hc
  | cons tname rest ih =>
      intro tps c hc
      rw [consumeFromTopics] at hc
      cases hl : lookupStr tps tname with
      | none =>
          rw [hl] at hc
          exact ih tps c hc
      | some t =>
          rw [hl] at hc
          dsimp only [] at hc
          by_cases hcc : t.can_consume n.name = true
          · rw [if_pos hcc] at hc
            dsimp only [] at hc
            rcases List.mem_append.mp hc with h' | h'
            · unfold mkConsEvents at h'
              rcases List.mem_map.mp h' with ⟨pe, hpe, hceq⟩
              have hpe' : pe ∈ t.events := by
                have : (t.consume n.name).1 ⊆ t.events := by
                  unfold Topic.consume
                  cases hu : t.unconsumed n.name with
                  | nil => intro x hx; simp at hx
                  | cons a as =>
                      intro x hx
                      dsimp only [] at hx
                      have : x ∈ t.unconsumed n.name := by rw [hu]; exact hx
                      exact List.mem_of_mem_filter this
                exact this hpe
              exact ⟨tname, t, pe, hl, hpe', by rw [← hceq], by rw [← hceq]⟩
            · obtain ⟨k, t', pe, hl', hpe, hcn, hco⟩ :=
                ih (updateStr tps tname (t.consume n.name).2) c h'
              by_cases hk : k = tname
              · subst hk
                rw [lookupStr_updateStr_self] at hl'
                have ht' : t' = (t.consume n.name).2 := Option.some.inj hl'.symm
                subst ht'
                have hev := (consume_topicEvs t n.name).2
                exact ⟨k, t, pe, hl, hev ▸ hpe, hcn, hco⟩
              · rw [lookupStr_updateStr_ne _ _ _ _ hk] at hl'
                exact ⟨k, t', pe, hl', hpe, hcn, hco⟩
          · rw [if_neg hcc] at hc
            exact ih tps c hc

theorem pubsFor_append (a b : List PubEvent) (k : String) :
    pubsFor (a ++ b) k = pubsFor a k ++ pubsFor b k := by
  unfold pubsFor
  rw [List.filter_append]

theorem pubsFor_singleton_pos {e : PubEvent} {k : String}
    (h : (e.topic_name == k) = true) : pubsFor [e] k = [e] := by
  unfold pubsFor
  simp [h]

theorem pubsFor_singleton_neg {e : PubEvent} {k : String}
    (h : (e.topic_name == k) = false) : pubsFor [e] k = [] := by
  unfold pubsFor
  simp [h]

theorem publishStep_inv {w : Workflow} {n : Node} {ctx : ExecutionContext}
    {result : MsgSource} {ids : List String} {store : List SEvent}
    {acc : PubFold} (hinv : PubFoldInv store acc) (target : Topic) :
    PubFoldInv store (publishStep w n ctx result ids acc target) := by
  unfold publishStep
  cases hl : lookupStr acc.topics target.name with
  | none => exact hinv
  | some t =>
      dsimp only []
      cases hp : (t.publish_data ctx n.name n.type result ids).1 with
      | none =>
          rw [publish_data_none_topic hp]
          dsimp only []
          constructor
          · intro k t' h
            by_cases hk : k = target.name
            · subst hk
              rw [lookupStr_updateStr_self] at h
              exact (Option.some.inj h) ▸ hinv.1 _ t hl
            · rw [lookupStr_updateStr_ne _ _ _ _ hk] at h
              exact hinv.1 k t' h
          · intro k h
            by_cases hk : k = target.name
            · subst hk
              rw [lookupStr_updateStr_self] at h
              exact absurd h (by simp)
            · rw [lookupStr_updateStr_ne _ _ _ _ hk] at h
              exact hinv.2 k h
      | some ev =>
          obtain ⟨_, hevname, hevoff, _, _, _, htop⟩ := publish_data_some_spec hp
          rw [htop]
          dsimp only []
          obtain ⟨hname, hpubs, hpair⟩ := hinv.1 target.name t hl
          have hevk : ev.topic_name = target.name := hevname.trans hname
          constructor
          · intro k t' h
            by_cases hk : k = target.name
            · subst hk
              rw [lookupStr_updateStr_self] at h
              have ht' := Option.some.inj h
              rw [← ht']
              refine ⟨hname, ?_, ?_⟩
              · rw [pubsFor_append, pubsFor_singleton_pos (by simp [hevk]),
                  ← List.append_assoc, hpubs]
              · exact pairwise_offsets_append hpair
                  (fun e he => hevoff ▸ nextOffset_gt he)
            · rw [lookupStr_updateStr_ne _ _ _ _ hk] at h
              obtain ⟨hn', hp', hpr'⟩ := hinv.1 k t' h
              refine ⟨hn', ?_, hpr'⟩
              rw [pubsFor_append,
                pubsFor_singleton_neg (by simp [hevk]; exact fun hc => hk hc.symm),
                List.append_nil]
              exact hp'
          · intro k h
            by_cases hk : k = target.name
            · subst hk
              rw [lookupStr_updateStr_self] at h
              exact absurd h (by simp)
            · rw [lookupStr_updateStr_ne _ _ _ _ hk] at h
              obtain ⟨h1, h2⟩ := hinv.2 k h
              refine ⟨h1, ?_⟩
              rw [pubsFor_append,
                pubsFor_singleton_neg (by simp [hevk]; exact fun hc => hk hc.symm),
                List.append_nil]
              exact h2

theorem publishFold_inv {w : Workflow} {n : Node} {ctx : ExecutionContext}
    {result : MsgSource} {ids : List String} {store : List SEvent} :
    ∀ (targets : List Topic) (acc : PubFold), PubFoldInv store acc →
      PubFoldInv store (targets.foldl (publishStep w n ctx result ids) acc) := by
  intro targets
  induction targets with
  | nil => intro acc h; exact h
  | cons target ts ih =>
      intro acc h
      rw [List.foldl_cons]
      exact ih _ (publishStep_inv h target)

theorem TopicsLinked_PubFoldInv {tps : List (String × Topic)}
    {store : List SEvent} {queue : List String}
    (h : TopicsLinked tps store) :
    PubFoldInv store { topics := tps, queue := queue, pubs := [] } := by
  constructor
  · intro k t hl
    obtain ⟨h1, h2, h3⟩ := h.1 k t hl
    exact ⟨h1, by rw [show pubsFor [] k = [] from rfl, List.append_nil]; exact h2, h3⟩
  · intro k hl
    exact ⟨h.2 k hl, rfl⟩

theorem execStep_EngineInv {w : Workflow} {ctx : ExecutionContext}
    {result : MsgSource} {nname : String} {rest : List String}
    {st st' : WState} (hinv : EngineInv st)
    (h : execStep w ctx result nname rest st = Except.ok st') :
    EngineInv st' := by
  unfold execStep at h
  cases hn : lookupStr w.nodes nname with
  | none => rw [hn] at h; exact absurd h (by simp)
  | some n =>
      rw [hn] at h
      dsimp only [] at h
      cases hg : (get_node_input n st.topics).1 with
      | nil =>
          rw [hg] at h
          dsimp only [] at h
          have hst := Except.ok.inj h
          rw [← hst]
          have hframe := get_node_input_nil_frame n st.topics hg
          exact ⟨by rw [hframe]; exact hinv.1, hinv.2⟩
      | cons c0 cs0 =>
          rw [hg] at h
          dsimp only [] at h
          have hst := Except.ok.inj h
          rw [← hst]
          unfold _publish_events
          dsimp only []
          have hlink2 : TopicsLinked (get_node_input n st.topics).2 st.store :=
            TopicsLinked_transfer hinv.1
              (consumeFromTopics_back_evs n n.subscribed_topic_names st.topics)
          have hfold := @publishFold_inv w n ctx result
            ((get_node_input n st.topics).1.map ConsEvent.event_id)
            st.store n.publish_to _
            (@TopicsLinked_PubFoldInv _ st.store rest hlink2)
          rw [hg] at hfold
          constructor
          · -- TopicsLinked of the final state
            constructor
            · intro k t hl
              obtain ⟨h1, h2, h3⟩ := hfold.1 k t hl
              refine ⟨h1, ?_, h3⟩
              rw [storePubsFor_append, storePubsFor_append,
                storePubsFor_cons_events, storePubsFor_pub_map,
                List.nil_append]
              exact h2
            · intro k hl
              obtain ⟨h1, h2⟩ := hfold.2 k hl
              rw [storePubsFor_append, storePubsFor_append,
                storePubsFor_cons_events, storePubsFor_pub_map,
                List.nil_append, h1, h2]
              rfl
          · -- ConsMatch of the extended store
            intro i c hget
            by_cases hi : i < st.store.length
            · rw [List.getElem?_append_left hi] at hget
              obtain ⟨j, p, hj, hstj, hn1, hn2⟩ := hinv.2 i c hget
              have hjlen : j < st.store.length := Nat.lt_trans hj hi
              exact ⟨j, p, hj, by rw [List.getElem?_append_left hjlen]; exact hstj,
                hn1, hn2⟩
            · push_neg at hi
              rw [List.getElem?_append_right hi] at hget
              have hmem := List.getElem?_mem hget
              rcases List.mem_append.mp hmem with h' | h'
              · rcases List.mem_map.mp h' with ⟨c1, hc1, hc1eq⟩
                have hc1' : c1 = c := by
                  injection hc1eq
                subst hc1'
                have hc1'' : c1 ∈ (get_node_input n st.topics).1 := by
                  rw [hg]
                  exact hc1
                obtain ⟨k, t, pe, hlk, hpe, hcn, hco⟩ :=
                  consumeFromTopics_consumed_spec n n.subscribed_topic_names
                    st.topics c1 hc1''
                obtain ⟨_, hpubs, _⟩ := hinv.1.1 k t hlk
                have hpemem : pe ∈ storePubsFor st.store k := by
                  rw [hpubs]
                  exact hpe
                have hpub_in := (mem_storePubsFor hpemem).1
                obtain ⟨j, hj⟩ := List.mem_iff_getElem?.mp hpub_in
                have hjlen : j < st.store.length := by
                  rcases List.getElem?_eq_some.mp hj with ⟨hlt, _⟩
                  exact hlt
                refine ⟨j, pe, Nat.lt_of_lt_of_le hjlen hi,
                  by rw [List.getElem?_append_left hjlen]; exact hj,
                  hcn.symm, hco.symm⟩
              · rcases List.mem_map.mp h' with ⟨p, _, hpe⟩
                exact absurd hpe (by simp)

theorem initial_workflow_empty_EngineInv {w : Workflow}
    {ctx : ExecutionContext} {input : List Message} {st : WState}
    (hwf : ∀ p ∈ w.topics, p.2.name = p.1)
    (hok : initial_workflow w ctx input [] = Except.ok st) :
    EngineInv st := by
  unfold initial_workflow at hok
  simp only [List.filter_nil] at hok
  cases hl : lookupStr (resetTopics w.topics) AGENT_INPUT_TOPIC with
  | none =>
      rw [hl] at hok
      exact absurd hok (by simp)
  | some t =>
      rw [hl] at hok
      dsimp only [] at hok
      have hlr := hl
      rw [lookupStr_resetTopics] at hlr
      rcases Option.map_eq_some'.mp hlr with ⟨t0, hl0, ht0⟩
      have hevents : t.events = [] := by rw [← ht0]; rfl
      have hname : t.name = AGENT_INPUT_TOPIC := by
        rw [← ht0]
        show t0.name = AGENT_INPUT_TOPIC
        exact lookupStr_name_eq hwf hl0
      cases hp : (t.publish_data ctx w.name w.type
          (MsgSource.drained (freshRunSeed [] ctx.conversation_id input))
          []).1 with
      | none =>
          rw [hp] at hok
          exact absurd hok (by simp)
      | some ev =>
          rw [hp] at hok
          dsimp only [] at hok
          obtain ⟨_, hevname, _, _, _, _, htop⟩ := publish_data_some_spec hp
          have hevtop : ev.topic_name = AGENT_INPUT_TOPIC :=
            hevname.trans hname
          have hst := Except.ok.inj hok
          rw [← hst, htop]
          constructor
          · constructor
            · intro k t' h
              by_cases hk : k = AGENT_INPUT_TOPIC
              · subst hk
                rw [lookupStr_updateStr_self] at h
                have ht' := Option.some.inj h
                rw [← ht']
                refine ⟨hname, ?_, ?_⟩
                · simp [storePubsFor, hevtop, hevents]
                · dsimp only []
                  rw [hevents]
                  simp
              · rw [lookupStr_updateStr_ne _ _ _ _ hk] at h
                rw [lookupStr_resetTopics] at h
                rcases Option.map_eq_some'.mp h with ⟨t1, hl1, ht1⟩
                have hn1 : t'.name = k := by
                  rw [← ht1]
                  show t1.name = k
                  exact lookupStr_name_eq hwf hl1
                have he1 : t'.events = [] := by rw [← ht1]; rfl
                have hevne : (ev.topic_name == k) = false := by
                  rw [hevtop]
                  exact beq_eq_false_iff_ne.mpr (Ne.symm hk)
                refine ⟨hn1, ?_, ?_⟩
                · simp [storePubsFor, hevne, he1]
                · rw [he1]
                  simp
            · intro k h
              by_cases hk : k = AGENT_INPUT_TOPIC
              · subst hk
                rw [lookupStr_updateStr_self] at h
                exact absurd h (by simp)
              · have hevne : (ev.topic_name == k) = false := by
                  rw [hevtop]
                  exact beq_eq_false_iff_ne.mpr (Ne.symm hk)
                simp [storePubsFor, hevne]
          · intro i c hget
            cases i with
            | zero => simp at hget
            | succ j => simp at hget

theorem EngineInv_of_Reaches {w : Workflow} {ctx : ExecutionContext}
    {input : List Message} {st : WState}
    (hwf : ∀ p ∈ w.topics, p.2.name = p.1)
    (hr : Reaches w ctx input st) : EngineInv st := by
  induction hr with
  | init h => exact initial_workflow_empty_EngineInv hwf h
  | step nname rest result hr hq hstep ih => exact execStep_EngineInv ih hstep

/-- C6 (confirmed).  In every state reachable by running the engine from
an empty event store (initialisation followed by any number of loop
iterations, with arbitrary node results covering both `execute` and
`a_execute`), the store satisfies `StoreOK`: every recorded consume
event's `(topic_name, offset)` pair matches a publish event recorded
strictly earlier in the store, and within each topic the offsets of the
recorded publish events are strictly increasing — hence never reused. -/
theorem claim_C6_confirmed (w : Workflow) (ctx : ExecutionContext)
    (input : List Message) (st : WState)
    (hwf : ∀ p ∈ w.topics, p.2.name = p.1)
    (hr : Reaches w ctx input st) : StoreOK st.store := by
  have hinv := EngineInv_of_Reaches hwf hr
  refine ⟨hinv.2, ?_⟩
  intro tname
  cases hl : lookupStr st.topics tname with
  | none =>
      rw [hinv.1.2 tname hl]
      exact List.Pairwise.nil
  | some t =>
      obtain ⟨_, h2, h3⟩ := hinv.1.1 tname t hl
      rw [h2]
      exact h3

/-- C6 witness: the one-node workflow's initial state from the empty
store satisfies the invariant. -/
theorem claim_C6_witness :
    (∀ p ∈ wEx.topics, p.2.name = p.1) ∧ StoreOK stInit.store :=
  ⟨by decide, claim_C6_confirmed wEx ctx0 [msg1] stInit (by decide)
    (Reaches.init (by rfl))⟩

/-! ### Claim C3: the resumption branch — utility lemmas -/

theorem restoreFold_cons (ev : SEvent) (evs : List SEvent)
    (tps : List (String × Topic)) :
    restoreFold (ev :: evs) tps
      = (match SEvent.topicName? ev with
         | none => pure tps
         | some tname =>
             match lookupStr tps tname with
             | none => Except.error "topic not found"
             | some t => pure (updateStr tps tname (t.restore_topic ev)))
        >>= fun tps2 => restoreFold evs tps2 := by
  unfold restoreFold
  rw [List.foldlM_cons]

theorem restoreFold_spec :
    ∀ (evs : List SEvent) (tps restored : List (String × Topic)),
    restoreFold evs tps = Except.ok restored →
    ∀ k t', lookupStr restored k = some t' →
      ∃ t, lookupStr tps k = some t ∧ t'.name = t.name
        ∧ t'.events = t.events ++ storePubsFor evs k := by
  intro evs
  induction evs with
  | nil =>
      intro tps restored h k t' h'
      have htr : tps = restored := by
        simpa [restoreFold, List.foldlM, pure, Except.pure] using h
      subst htr
      exact ⟨t', h', rfl, by simp [storePubsFor]⟩
  | cons ev evs ih =>
      intro tps restored h k t' h'
      rw [restoreFold_cons] at h
      cases ev with
      | assistantRespond a =>
          dsimp only [SEvent.topicName?] at h
          rw [pure_bind] at h
          obtain ⟨t, hl, hn, hev⟩ := ih tps restored h k t' h'
          exact ⟨t, hl, hn, by rw [hev]; simp [storePubsFor]⟩
      | cons e =>
          dsimp only [SEvent.topicName?] at h
          cases hl2 : lookupStr tps e.topic_name with
          | none =>
              rw [hl2] at h
              simp [Bind.bind, Except.bind] at h
          | some t =>
              rw [hl2] at h
              dsimp only [] at h
              rw [pure_bind] at h
              obtain ⟨t1, hlu, hn1, hev1⟩ := ih _ restored h k t' h'
              by_cases hk : k = e.topic_name
              · subst hk
                rw [lookupStr_updateStr_self] at hlu
                have ht1 := Option.some.inj hlu
                refine ⟨t, hl2, ?_, ?_⟩
                · rw [hn1, ← ht1]
                  rfl
                · rw [hev1, ← ht1]
                  simp [storePubsFor, Topic.restore_topic]
              · rw [lookupStr_updateStr_ne _ _ _ _ hk] at hlu
                refine ⟨t1, hlu, hn1, ?_⟩
                rw [hev1]
                have hne : (e.topic_name == k) = false :=
                  beq_eq_false_iff_ne.mpr (Ne.symm hk)
                simp [storePubsFor, hne]
      | pub e =>
          dsimp only [SEvent.topicName?] at h
          cases hl2 : lookupStr tps e.topic_name with
          | none =>
              rw [hl2] at h
              simp [Bind.bind, Except.bind] at h
          | some t =>
              rw [hl2] at h
              dsimp only [] at h
              rw [pure_bind] at h
              obtain ⟨t1, hlu, hn1, hev1⟩ := ih _ restored h k t' h'
              by_cases hk : k = e.topic_name
              · subst hk
                rw [lookupStr_updateStr_self] at hlu
                have ht1 := Option.some.inj hlu
                refine ⟨t, hl2, ?_, ?_⟩
                · rw [hn1, ← ht1]
                  rfl
                · rw [hev1, ← ht1]
                  show (t.events ++ [e]) ++ storePubsFor evs e.topic_name
                      = t.events ++ storePubsFor (SEvent.pub e :: evs) e.topic_name
                  simp [storePubsFor]
              · rw [lookupStr_updateStr_ne _ _ _ _ hk] at hlu
                refine ⟨t1, hlu, hn1, ?_⟩
                rw [hev1]
                have hne : (e.topic_name == k) = false :=
                  beq_eq_false_iff_ne.mpr (Ne.symm hk)
                simp [storePubsFor, hne]

theorem can_consume_of_cc {t1 t2 : Topic} (h : topicCC t1 t2) (c : String) :
    t2.can_consume c = t1.can_consume c := by
  unfold Topic.can_consume
  have hcur : t2.cursor c = t1.cursor c := by
    unfold Topic.cursor
    rw [h.2.2]
  rw [hcur]
  have key : ∀ (l : List PubEvent) (cur : Option Nat),
      l.any (offsetNew cur)
        = (l.map PubEvent.offset).any (fun o =>
            match cur with
            | none => true
            | some k => decide (k < o)) := by
    intro l cur
    induction l with
    | nil => rfl
    | cons e l ihl =>
        rw [List.any_cons, List.map_cons, List.any_cons, ihl]
        cases cur with
        | none => rfl
        | some k => rfl
  rw [key, key, h.2.1]

theorem evalExpr_of_back {tpsA tpsB : List (String × Topic)}
    (h : topicsBack topicCC tpsA tpsB) (cname : String) :
    ∀ expr : TopicExpr, evalExpr tpsB cname expr = evalExpr tpsA cname expr := by
  intro expr
  induction expr with
  | topic t =>
      unfold evalExpr
      cases hl : lookupStr tpsB t.name with
      | none => rw [h.2 t.name hl]
      | some t2 =>
          obtain ⟨t1, hl1, hcc⟩ := h.1 t.name t2 hl
          rw [hl1]
          exact can_consume_of_cc hcc cname
  | and a b iha ihb =>
      unfold evalExpr
      rw [iha, ihb]
  | or a b iha ihb =>
      unfold evalExpr
      rw [iha, ihb]

theorem can_execute_of_back {tpsA tpsB : List (String × Topic)}
    (h : topicsBack topicCC tpsA tpsB) (n : Node) :
    can_execute tpsB n = can_execute tpsA n := by
  unfold can_execute
  induction n.subscribed_expressions with
  | nil => rfl
  | cons e es ih =>
      rw [List.all_cons, List.all_cons, ih, evalExpr_of_back h n.name e]

theorem topicsBack_cc_refl (tps : List (String × Topic)) :
    topicsBack topicCC tps tps :=
  ⟨fun k t' h => ⟨t', h, rfl, rfl, rfl⟩, fun _ h => h⟩

theorem topicsBack_cc_trans {tpsA tpsB tpsC : List (String × Topic)}
    (h1 : topicsBack topicCC tpsA tpsB)
    (h2 : topicsBack topicCC tpsB tpsC) :
    topicsBack topicCC tpsA tpsC := by
  constructor
  · intro k t' h
    obtain ⟨tb, hb, hbk⟩ := h2.1 k t' h
    obtain ⟨ta, ha, hak⟩ := h1.1 k tb hb
    exact ⟨ta, ha, hbk.1.trans hak.1, hbk.2.1.trans hak.2.1,
      hbk.2.2.trans hak.2.2⟩
  · intro k h
    exact h1.2 k (h2.2 k h)

theorem topicsBack_cc_updateStr {tps : List (String × Topic)} {k : String}
    {t t' : Topic} (hl : lookupStr tps k = some t) (hP : topicCC t t') :
    topicsBack topicCC tps (updateStr tps k t') := by
  constructor
  · intro k' t'' h
    by_cases hk : k' = k
    · subst hk
      rw [lookupStr_updateStr_self] at h
      exact ⟨t, hl, (Option.some.inj h) ▸ hP⟩
    · rw [lookupStr_updateStr_ne _ _ _ _ hk] at h
      exact ⟨t'', h, rfl, rfl, rfl⟩
  · intro k' h
    by_cases hk : k' = k
    · subst hk
      rw [lookupStr_updateStr_self] at h
      exact absurd h (by simp)
    · rw [lookupStr_updateStr_ne _ _ _ _ hk] at h
      exact h

theorem append_user_input_cc (t : Topic) (pe : PubEvent) (ms : List Message) :
    topicCC t (t.append_user_input pe ms).2 := by
  refine ⟨rfl, ?_, rfl⟩
  simp only [Topic.append_user_input]
  rw [List.map_map]
  apply List.map_congr_left
  intro x hx
  simp only [Function.comp_apply]
  by_cases hb : (x.offset == pe.offset) = true
  · rw [if_pos hb]
    exact (eq_of_beq hb).symm
  · rw [if_neg hb]

theorem enqNodes_spec {w : Workflow} {input : List Message} {pe : PubEvent}
    {restored : List (String × Topic)} :
    ∀ (ns : List String) (acc acc' : EnqFold),
      topicsBack topicCC restored acc.topics →
      enqNodes w input pe ns acc = Except.ok acc' →
      acc'.queue = acc.queue ++ ns.filter (readyTest w restored pe)
      ∧ topicsBack topicCC restored acc'.topics
      ∧ ∀ ev ∈ acc'.recorded, ev ∈ acc.recorded
          ∨ ev = SEvent.pub (appendedEvent pe input) := by
  intro ns
  induction ns with
  | nil =>
      intro acc acc' hback h
      rw [enqNodes] at h
      have hacc := Except.ok.inj h
      subst hacc
      exact ⟨by simp, hback, fun ev hev => Or.inl hev⟩
  | cons nname ns ih =>
      intro acc acc' hback h
      rw [enqNodes] at h
      cases hnn : lookupStr w.nodes nname with
      | none =>
          rw [hnn] at h
          exact absurd h (by simp)
      | some node =>
          rw [hnn] at h
          dsimp only [] at h
          cases htl : lookupStr acc.topics pe.topic_name with
          | none =>
              rw [htl] at h
              exact absurd h (by simp)
          | some t =>
              rw [htl] at h
              dsimp only [] at h
              obtain ⟨t1, hl1, hcc⟩ := hback.1 pe.topic_name t htl
              have hready : readyTest w restored pe nname
                  = (t.can_consume nname && can_execute acc.topics node) := by
                unfold readyTest
                rw [hnn, hl1]
                dsimp only []
                rw [can_consume_of_cc hcc nname, can_execute_of_back hback node]
              cases hc : (t.can_consume nname && can_execute acc.topics node) with
              | false =>
                  rw [if_neg (by simp [hc])] at h
                  obtain ⟨hq, hb, hr⟩ := ih acc acc' hback h
                  have hrt : readyTest w restored pe nname = false :=
                    hready.trans hc
                  refine ⟨?_, hb, hr⟩
                  rw [hq, List.filter_cons, hrt]
                  simp
              | true =>
                  rw [if_pos hc] at h
                  have hrt : readyTest w restored pe nname = true :=
                    hready.trans hc
                  cases ha : t.can_append_user_input nname pe with
                  | false =>
                      rw [if_neg (by simp [ha])] at h
                      obtain ⟨hq, hb, hr⟩ :=
                        ih { acc with queue := acc.queue ++ [nname] } acc'
                          hback h
                      refine ⟨?_, hb, fun ev hev => hr ev hev⟩
                      rw [hq, List.filter_cons, hrt]
                      simp
                  | true =>
                      rw [if_pos ha] at h
                      have back2 : topicsBack topicCC restored
                          (updateStr acc.topics pe.topic_name
                            (t.append_user_input pe input).2) :=
                        topicsBack_cc_trans hback
                          (topicsBack_cc_updateStr htl
                            (append_user_input_cc t pe input))
                      obtain ⟨hq, hb, hr⟩ :=
                        ih { topics := updateStr acc.topics pe.topic_name
                               (t.append_user_input pe input).2
                             queue := acc.queue ++ [nname]
                             recorded := acc.recorded
                               ++ [SEvent.pub (t.append_user_input pe input).1] }
                          acc' back2 h
                      refine ⟨?_, hb, ?_⟩
                      · rw [hq, List.filter_cons, hrt]
                        simp
                      · intro ev hev
                        rcases hr ev hev with h' | h'
                        · rcases List.mem_append.mp h' with h'' | h''
                          · exact Or.inl h''
                          · refine Or.inr ?_
                            have : ev = SEvent.pub
                                (t.append_user_input pe input).1 := by
                              simpa using h''
                            rw [this]
                            rfl
                        · exact Or.inr h'

theorem enqFoldAux_spec {w : Workflow} {input : List Message}
    {restored : List (String × Topic)} :
    ∀ (pes : List PubEvent) (acc acc' : EnqFold),
      topicsBack topicCC restored acc.topics →
      pes.foldlM (fun acc pe =>
        match lookupStr w.topic_nodes pe.topic_name with
        | none => pure acc
        | some ns => enqNodes w input pe ns acc) acc = Except.ok acc' →
      acc'.queue = acc.queue ++ pes.flatMap (subscribersReady w restored)
      ∧ topicsBack topicCC restored acc'.topics
      ∧ ∀ ev ∈ acc'.recorded, ev ∈ acc.recorded
          ∨ ∃ pe ∈ pes, ev = SEvent.pub (appendedEvent pe input) := by
  intro pes
  induction pes with
  | nil =>
      intro acc acc' hback h
      have hacc : acc = acc' := by
        simpa [List.foldlM, pure, Except.pure] using h
      subst hacc
      exact ⟨by simp, hback, fun ev hev => Or.inl hev⟩
  | cons pe pes ih =>
      intro acc acc' hback h
      rw [List.foldlM_cons] at h
      cases htn : lookupStr w.topic_nodes pe.topic_name with
      | none =>
          rw [htn] at h
          rw [pure_bind] at h
          obtain ⟨hq, hb, hr⟩ := ih acc acc' hback h
          refine ⟨?_, hb, ?_⟩
          · rw [hq, List.flatMap_cons]
            unfold subscribersReady
            rw [htn]
            simp
          · intro ev hev
            rcases hr ev hev with h' | ⟨pe', hpe', heq⟩
            · exact Or.inl h'
            · exact Or.inr ⟨pe', List.mem_cons_of_mem _ hpe', heq⟩
      | some ns =>
          rw [htn] at h
          dsimp only [] at h
          cases hEn : enqNodes w input pe ns acc with
          | error e =>
              rw [hEn] at h
              simp [Bind.bind, Except.bind] at h
          | ok acc1 =>
              rw [hEn] at h
              have h2 : pes.foldlM (fun acc pe =>
                  match lookupStr w.topic_nodes pe.topic_name with
                  | none => pure acc
                  | some ns => enqNodes w input pe ns acc) acc1
                  = Except.ok acc' := by
                simpa [Bind.bind, Except.bind] using h
              obtain ⟨hq1, hb1, hr1⟩ := enqNodes_spec ns acc acc1 hback hEn
              obtain ⟨hq2, hb2, hr2⟩ := ih acc1 acc' hb1 h2
              refine ⟨?_, hb2, ?_⟩
              · rw [hq2, hq1, List.flatMap_cons]
                unfold subscribersReady
                rw [htn]
                rw [List.append_assoc]
              · intro ev hev
                rcases hr2 ev hev with h' | ⟨pe', hpe', heq⟩
                · rcases hr1 ev h' with h'' | h''
                  · exact Or.inl h''
                  · exact Or.inr ⟨pe, List.mem_cons_self _ _, h''⟩
                · exact Or.inr ⟨pe', List.mem_cons_of_mem _ hpe', heq⟩

/-- C3 (confirmed).  On a request whose store already holds publish or
consume events (`initial_workflow`'s resumption branch): every stored
publish event of the request is replayed into its topic — each topic of
the replayed state starts from its reset (empty) state and carries
exactly the request's stored publish events for that topic, in order
and at their original offsets; the execution queue is exactly, in
order, the subscribers of each stored publish event that can still
consume and are ready, judged against the replayed state; the final
topics differ from the replayed ones at most in message payloads (names,
offsets and consumer cursors are unchanged — no new publish); and the
only events recorded are merges of the new human input into an existing
stored publish event — never a fresh publish to the entry topic. -/
theorem claim_C3_confirmed (w : Workflow) (ctx : ExecutionContext)
    (input : List Message) (store : List SEvent) (st : WState)
    (hne : store.filter (isRequestTopicEvent ctx.assistant_request_id) ≠ [])
    (hok : initial_workflow w ctx input store = Except.ok st) :
    ∃ restored : List (String × Topic),
      restoreFold (store.filter (isRequestTopicEvent ctx.assistant_request_id))
        (resetTopics w.topics) = Except.ok restored
      ∧ (∀ k t', lookupStr restored k = some t' →
           ∃ t0, lookupStr w.topics k = some t0 ∧ t'.name = t0.name
             ∧ t'.events = storePubsFor
                 (store.filter (isRequestTopicEvent ctx.assistant_request_id)) k)
      ∧ st.queue = (storedPubs (store.filter
            (isRequestTopicEvent ctx.assistant_request_id))).flatMap
            (subscribersReady w restored)
      ∧ (∀ k t', lookupStr st.topics k = some t' →
           ∃ t1, lookupStr restored k = some t1 ∧ t'.name = t1.name
             ∧ t'.events.map PubEvent.offset = t1.events.map PubEvent.offset
             ∧ t'.consumption_offsets = t1.consumption_offsets)
      ∧ ∃ recorded : List SEvent,
          st.store = store ++ recorded
          ∧ ∀ ev ∈ recorded,
              ∃ pe ∈ storedPubs (store.filter
                  (isRequestTopicEvent ctx.assistant_request_id)),
                ev = SEvent.pub (appendedEvent pe input) := by
  simp only [initial_workflow] at hok
  cases hevs : store.filter (isRequestTopicEvent ctx.assistant_request_id) with
  | nil => exact absurd hevs hne
  | cons e evs =>
      rw [hevs] at hok
      cases hre : restoreFold (e :: evs) (resetTopics w.topics) with
      | error s =>
          rw [hre] at hok
          simp [Bind.bind, Except.bind] at hok
      | ok restored =>
          rw [hre] at hok
          simp only [Bind.bind, Except.bind] at hok
          cases hen : enqFold w input (storedPubs (e :: evs)) restored with
          | error s =>
              rw [hen] at hok
              simp [Except.bind] at hok
          | ok enq =>
              rw [hen] at hok
              simp only [Except.bind] at hok
              have hst := Except.ok.inj hok
              rw [← hst]
              unfold enqFold at hen
              obtain ⟨hq, hb, hr⟩ := enqFoldAux_spec (storedPubs (e :: evs))
                { topics := restored, queue := [], recorded := [] } enq
                (topicsBack_cc_refl restored) hen
              refine ⟨restored, rfl, ?_, ?_, ?_, enq.recorded, rfl, ?_⟩
              · intro k t' hlk
                obtain ⟨t, hlt, hn, hev⟩ :=
                  restoreFold_spec (e :: evs) (resetTopics w.topics) restored
                    hre k t' hlk
                rw [lookupStr_resetTopics] at hlt
                rcases Option.map_eq_some'.mp hlt with ⟨t0, hl0, ht0⟩
                refine ⟨t0, hl0, ?_, ?_⟩
                · rw [hn, ← ht0]
                  rfl
                · rw [hev, ← ht0]
                  simp [Topic.reset]
              · rw [hq]
                simp
              · intro k t' hlk
                obtain ⟨t1, hl1, hcc⟩ := hb.1 k t' hlk
                exact ⟨t1, hl1, hcc.1, hcc.2.1, hcc.2.2⟩
              · intro ev hev
                rcases hr ev hev with h' | ⟨pe, hpe, heq⟩
                · exact absurd h' (by simp)
                · exact ⟨pe, hpe, heq⟩

/-- C3 witness: re-invoking the one-node workflow on the store left by
the fresh run replays the entry publish and re-enqueues node n1 without
recording anything new. -/
theorem claim_C3_witness :
    stInit.store.filter (isRequestTopicEvent ctx0.assistant_request_id) ≠ []
    ∧ initial_workflow wEx ctx0 [msg1] stInit.store = Except.ok stInit
    ∧ ∃ restored,
        restoreFold (stInit.store.filter
            (isRequestTopicEvent ctx0.assistant_request_id))
          (resetTopics wEx.topics) = Except.ok restored
        ∧ stInit.queue = (storedPubs (stInit.store.filter
            (isRequestTopicEvent ctx0.assistant_request_id))).flatMap
            (subscribersReady wEx restored)
        ∧ ∃ recorded, stInit.store = stInit.store ++ recorded
            ∧ ∀ ev ∈ recorded,
                ∃ pe ∈ storedPubs (stInit.store.filter
                    (isRequestTopicEvent ctx0.assistant_request_id)),
                  ev = SEvent.pub (appendedEvent pe [msg1]) := by
  refine ⟨by decide, by rfl, ?_⟩
  obtain ⟨restored, h1, _, h3, _, h5⟩ :=
    claim_C3_confirmed wEx ctx0 [msg1] stInit.store stInit (by decide) (by rfl)
  exact ⟨restored, h1, h3, h5⟩

/-! ### Claim C8: serialization round-trips -/

theorem strListAux_map : ∀ l : List String,
    strListAux (l.map Json.str) = some l := by
  intro l
  induction l with
  | nil => rfl
  | cons s rest ih => simp [strListAux, ih]

theorem message_from_to (m : Message) :
    message_from_json m.to_json = some m := by
  cases m with
  | mk role content tcid tcs ts =>
      cases content <;> cases tcid <;>
        simp [Message.to_json, message_from_json, jlookup, List.find?,
          optStrJson, jstr, joptStr, jnum, jstrList, strListAux_map,
          Option.bind]

theorem msgListAux_map : ∀ l : List Message,
    msgListAux (l.map Message.to_json) = some l := by
  intro l
  induction l with
  | nil => rfl
  | cons m rest ih => simp [msgListAux, message_from_to, ih]

theorem context_from_to (c : ExecutionContext) :
    context_from_json c.to_json = some c := by
  cases c
  simp [ExecutionContext.to_json, context_from_json, jlookup, List.find?,
    jstr, Option.bind]

theorem loadsDataUnion_dumps (d : MData) :
    loadsDataUnion (dumpsData d) = some d := by
  cases d with
  | one m =>
      show loadsDataUnion m.to_json = some (MData.one m)
      have hshape : loadsDataUnion m.to_json
          = (message_from_json m.to_json).map MData.one := by
        cases m
        rfl
      rw [hshape, message_from_to]
      rfl
  | many l =>
      simp [dumpsData, loadsDataUnion, msgListAux_map]

theorem cons_event_from_to (e : ConsumeFromTopicEvent) :
    ConsumeFromTopicEvent.from_dict e.to_dict = some e := by
  cases e
  simp [ConsumeFromTopicEvent.to_dict, ConsumeFromTopicEvent.from_dict,
    jlookup, List.find?, jstr, jnum, jstrList, strListAux_map,
    context_from_to, loadsDataUnion_dumps, Option.bind]

theorem consListAux_map : ∀ l : List ConsumeFromTopicEvent,
    consListAux (l.map ConsumeFromTopicEvent.to_dict) = some l := by
  intro l
  induction l with
  | nil => rfl
  | cons c rest ih => simp [consListAux, cons_event_from_to, ih]

/-- The extent to which serialization does round-trip:
`PublishToTopicEvent.from_dict` inverts `to_dict` for both payload
shapes (its parser checks list-vs-object, lines 44-48), and a
`NodeRespondEvent` whose output payload is a list of messages is
restored intact. -/
theorem serialization_roundtrip_extent :
    (∀ e : PublishToTopicEvent,
      PublishToTopicEvent.from_dict e.to_dict = some e)
    ∧ (∀ (e : NodeRespondEvent) (l : List Message),
        e.output_data = MData.many l →
        NodeRespondEvent.from_dict e.to_dict = some e) := by
  constructor
  · intro e
    cases e
    simp [PublishToTopicEvent.to_dict, PublishToTopicEvent.from_dict,
      jlookup, List.find?, jstr, jnum, jstrList, strListAux_map,
      context_from_to, loadsDataUnion_dumps, Option.bind]
  · intro e l hl
    cases e with
    | mk eid ety ts ctx nn nt inputs out =>
        have hout : out = MData.many l := hl
        subst hout
        simp [NodeRespondEvent.to_dict, NodeRespondEvent.from_dict,
          jlookup, List.find?, jstr, jnum, context_from_to,
          consListAux_map, dumpsData, loadsDataList, msgListAux_map,
          Option.bind]

/-- The round-trip extent at concrete events: a publish event with a
single-message payload and a node-respond event with a list payload. -/
theorem serialization_roundtrip_concrete :
    PublishToTopicEvent.from_dict pubToTopicEx.to_dict = some pubToTopicEx
    ∧ NodeRespondEvent.from_dict nodeRespondManyEx.to_dict
        = some nodeRespondManyEx :=
  ⟨serialization_roundtrip_extent.1 pubToTopicEx,
   serialization_roundtrip_extent.2 nodeRespondManyEx [outMsg] rfl⟩

/-- A dumped single message never parses as `List[Message]`. -/
theorem loadsDataList_one (m : Message) :
    loadsDataList m.to_json = none := by
  cases m
  rfl

/-- C8 (code bug).  Every `NodeRespondEvent` whose output payload is a
single message — one of the two payload shapes the declared type
`Union[Message, List[Message]]` admits and `to_dict` produces — fails
to round-trip: `to_dict` dumps the message as a JSON object, but
`from_dict` always validates the dumped output as `List[Message]`, so
deserialization rejects the envelope outright (returns nothing) instead
of restoring the event, breaking the replay requirement. -/
theorem claim_C8_code_bug (e : NodeRespondEvent) (m : Message)
    (h : e.output_data = MData.one m) :
    NodeRespondEvent.from_dict e.to_dict = none := by
  cases e with
  | mk eid ety ts ctx nn nt inputs out =>
      have hout : out = MData.one m := h
      subst hout
      simp [NodeRespondEvent.to_dict, NodeRespondEvent.from_dict,
        jlookup, List.find?, jstr, jnum, context_from_to,
        consListAux_map, dumpsData, loadsDataList_one, Option.bind]

/-- C8 witness: the concrete single-message node-respond event fails to
deserialize. -/
theorem claim_C8_witness :
    NodeRespondEvent.from_dict nodeRespondOneEx.to_dict = none :=
  claim_C8_code_bug nodeRespondOneEx outMsg rfl

end Grafi
